import Mathlib

/-!
# A verification development for the buntdb key/value store

This file shallowly embeds the core of `buntdb.go` (the transactional
in-memory key/value store with secondary indexes and an append-only RESP
persistence log) in Lean 4, and proves or refutes a number of claims of
its natural-language specification.

Modelling conventions:
* Go `time.Time` instants and `time.Duration` values are modelled as `Int`
  nanoseconds.  Go's duration division `d / time.Second` truncates toward
  zero, which is exactly `Int.tdiv`; the `uint64(...)` conversion used by
  `writeSetTo` is reduction modulo `2^64`; `time.Duration(ex) * time.Second`
  wraps in two's complement, modelled by `wrap64`.
* Go strings are byte strings; file contents are modelled as `List Char`
  with one `Char` per byte and keys/values as `String`.  Byte comparison
  `a < b` on Go strings is modelled by the lexicographic order `goStrLt`.
* The b-tree containers (`github.com/tidwall/btree`) are consumed by the
  source as black-box ordered sets; they are modelled as lists kept sorted
  by the tree's comparator, with `ReplaceOrInsert` / `Delete` / `Get`
  navigating by the comparator exactly as an ordered set does.  The r-tree
  is modelled as a plain list of items (insertion appends, removal erases
  the item), with rectangle coordinates as `Int` (no claim below touches
  floating-point rectangle arithmetic).
* Go maps keyed by `string` (`tx.rollbacks`, `tx.commits`, `db.idxs`) are
  modelled as association lists; the only map iteration performed by the
  claims below is over singleton or independent-per-key maps, where Go's
  arbitrary iteration order is irrelevant.
-/

namespace BuntDB

/-! ## Time -/

/-- An absolute instant, in nanoseconds (Go `time.Time`). -/
abbrev Instant := Int

/-- Go `time.Second` in nanoseconds. -/
def nsPerSecond : Int := 1000000000

/-- Two's-complement wrap-around of 64-bit signed arithmetic
(Go `int64` multiplication overflow). -/
def wrap64 (x : Int) : Int := (x + 2 ^ 63) % 2 ^ 64 - 2 ^ 63

/-! ## Items (`dbItemOpts`, `dbItem`, `expired`, `expiresAt`, `Less`) -/

/-- Source `dbItemOpts`: `ex bool; exat time.Time`. -/
structure dbItemOpts where
  ex : Bool
  exat : Instant
deriving DecidableEq, Repr

/-- Source `dbItem`: `key, val string; opts *dbItemOpts`
(a nil pointer is `none`). -/
structure dbItem where
  key : String
  val : String
  opts : Option dbItemOpts := none
deriving DecidableEq, Repr

/-- Source `dbItem.expired`:
`dbi.opts != nil && dbi.opts.ex && time.Now().After(dbi.opts.exat)`,
evaluated at instant `now`. -/
def dbItem.expired (now : Instant) (dbi : dbItem) : Bool :=
  match dbi.opts with
  | some o => o.ex && decide (o.exat < now)
  | none => false

/-- Source `maxTime = time.Unix(1<<63-62135596801, 999999999)`,
in nanoseconds. -/
def maxTime : Instant := (2 ^ 63 - 62135596801) * 1000000000 + 999999999

/-- Source `dbItem.expiresAt`: the expiration instant, or `maxTime` when
the item does not expire. -/
def dbItem.expiresAt (dbi : dbItem) : Instant :=
  match dbi.opts with
  | some o => if o.ex then o.exat else maxTime
  | none => maxTime

/-- Go's `<` on byte strings: lexicographic byte comparison. -/
def goStrLtList : List Char → List Char → Bool
  | [], [] => false
  | [], _ :: _ => true
  | _ :: _, [] => false
  | a :: as, b :: bs =>
      if a < b then true else if b < a then false else goStrLtList as bs

/-- Go's `a < b` on strings. -/
def goStrLt (a b : String) : Bool := goStrLtList a.data b.data

/-- The keys-tree comparator: source `dbItem.Less` with a nil b-tree
context falls directly to `dbi.key < dbi2.key`. -/
def keysLess (a b : dbItem) : Bool := goStrLt a.key b.key

/-- The expires-tree comparator: source `dbItem.Less` with an `exctx`
context: earlier expiration first, ties broken by key. -/
def expsLess (a b : dbItem) : Bool :=
  if a.expiresAt < b.expiresAt then true
  else if b.expiresAt < a.expiresAt then false
  else goStrLt a.key b.key

/-- The index-tree comparator: source `dbItem.Less` with an `*index`
context whose `less` field is `l` (`none` when the index has no less
function): compare values by `l` in both directions, then fall back to
the key comparison. -/
def indexLess (l : Option (String → String → Bool)) (a b : dbItem) : Bool :=
  match l with
  | some less =>
      if less a.val b.val then true
      else if less b.val a.val then false
      else goStrLt a.key b.key
  | none => goStrLt a.key b.key

/-- Source `createIndex`'s combination of the `lessers` slice into a
single less function: `case 0` yields the constant-false function,
`case 1` yields the function itself, and the default case tries each of
the first `n-1` functions in both directions and finishes with a plain
call of the last one. -/
def compositeLess : List (String → String → Bool) → String → String → Bool
  | [], _, _ => false
  | [l], a, b => l a b
  | l :: rest, a, b =>
      if l a b then true
      else if l b a then false
      else compositeLess rest a b

/-! ## The b-tree model: sorted lists

`treeInsert` models `BTree.ReplaceOrInsert` (returning the replaced
item), `treeDelete` models `BTree.Delete` (returning the deleted item)
and `treeGet` models `BTree.Get`.  Two items occupy the same tree slot
exactly when the comparator declares neither less than the other. -/

/-- `¬ less a b ∧ ¬ less b a`: `a` and `b` occupy the same slot of a tree
ordered by `less`. -/
def treeEqv (less : dbItem → dbItem → Bool) (a b : dbItem) : Bool :=
  !less a b && !less b a

/-- `ReplaceOrInsert`: insert `x` into the sorted list, replacing (and
returning) an equivalent element if present. -/
def treeInsert (less : dbItem → dbItem → Bool) (x : dbItem) :
    List dbItem → List dbItem × Option dbItem
  | [] => ([x], none)
  | y :: ys =>
      if less x y then (x :: y :: ys, none)
      else if less y x then
        let r := treeInsert less x ys
        (y :: r.1, r.2)
      else (x :: ys, some y)

/-- `Delete`: remove (and return) the element equivalent to `x`. -/
def treeDelete (less : dbItem → dbItem → Bool) (x : dbItem) :
    List dbItem → List dbItem × Option dbItem
  | [] => ([], none)
  | y :: ys =>
      if less x y then (y :: ys, none)
      else if less y x then
        let r := treeDelete less x ys
        (y :: r.1, r.2)
      else (ys, some y)

/-- `Get`: find the element equivalent to `x`. -/
def treeGet (less : dbItem → dbItem → Bool) (x : dbItem)
    (l : List dbItem) : Option dbItem :=
  l.find? (fun y => treeEqv less x y)

/-! ## Wildcard pattern matching (`wildcardMatch` / `deepMatch`) -/

mutual

/-- Source `deepMatch`: iterative wildcard matcher; `*` matches any run
of characters, `?` any single character, anything else itself. -/
def deepMatch : List Char → List Char → Bool
  | str, [] => str.isEmpty
  | str, c :: ps =>
      if c = '*' then
        wildcardMatch str ps ||
          (match str with
           | [] => false
           | _ :: ss => wildcardMatch ss (c :: ps))
      else
        match str with
        | [] => false
        | s :: ss =>
            if c = '?' then deepMatch ss ps
            else if s = c then deepMatch ss ps
            else false
termination_by str p => (str.length + p.length, 0)
decreasing_by
  all_goals simp_wf
  all_goals omega

/-- Source `wildcardMatch`: fast path for the pattern `"*"`, otherwise
`deepMatch`. -/
def wildcardMatch (str pattern : List Char) : Bool :=
  if pattern = ['*'] then true else deepMatch str pattern
termination_by (str.length + pattern.length, 1)
decreasing_by
  all_goals omega

end

/-- `wildcardMatch` on Go strings. -/
def wildcardMatchS (str pattern : String) : Bool :=
  wildcardMatch str.data pattern.data

/-! ## Errors

The error values of the package (`ErrTxNotWritable`, `ErrTxClosed`,
`ErrNotFound`, `ErrInvalid`, ...) together with the `io` and `strconv`
errors that `DB.load` can surface.  The source defines no error for
mutating while iterating, and none is modelled. -/

inductive Err where
  | txNotWritable
  | txClosed
  | notFound
  | invalid
  | databaseClosed
  | indexExists
  | invalidOperation
  | unexpectedEOF
  | eof
  | parseIntError
deriving DecidableEq, Repr

/-- `opts != nil && opts.ex`. -/
def hasEx : Option dbItemOpts → Bool
  | some o => o.ex
  | none => false

/-! ## Indexes and the database (`index`, `DB`) -/

/-- Source `index`: name, key pattern, optional less function, optional
rect function, and the b-tree / r-tree containers.  Rectangle
coordinates are modelled as `Int` (no claim touches their arithmetic). -/
structure index where
  name : String
  pattern : String
  less : Option (String → String → Bool)
  rect : Option (String → List Int × List Int)
  btr : Option (List dbItem)
  rtr : Option (List dbItem)

/-- Source `DB` (the fields the claims depend on: the keys tree, the
expires tree, the index registry and the persistence flag; file handles,
locks and the background manager are outside the embedding). -/
structure DB where
  keys : List dbItem
  exps : List dbItem
  idxs : List index
  persist : Bool

/-- Removing a (previous) item from one index's containers, as done by
the removal loops of `insertIntoDatabase` / `deleteFromDatabase`:
`idx.btr.Delete(pdbi)` and `idx.rtr.Remove(pdbi)`. -/
def indexRemove (pdbi : dbItem) (idx : index) : index :=
  { idx with
    btr := idx.btr.map (fun t => (treeDelete (indexLess idx.less) pdbi t).1)
    rtr := idx.rtr.map (fun t => t.erase pdbi) }

/-- Adding a new item to one index's containers, as done by the insertion
loop of `insertIntoDatabase`: skipped unless the key matches the index
pattern, then `idx.btr.ReplaceOrInsert(item)` / `idx.rtr.Insert(item)`. -/
def indexAdd (item : dbItem) (idx : index) : index :=
  if wildcardMatchS item.key idx.pattern then
    { idx with
      btr := idx.btr.map (fun t => (treeInsert (indexLess idx.less) item t).1)
      rtr := idx.rtr.map (fun t => t ++ [item]) }
  else idx

/-- Source `DB.insertIntoDatabase`: replace-or-insert into the keys tree;
if an item was replaced, first remove it from the expires tree (when it
had eviction options) and from every index; then add the new item to the
expires tree (when it has eviction options) and to every index whose
pattern its key matches.  Returns the replaced item. -/
def insertIntoDatabase (db : DB) (item : dbItem) : DB × Option dbItem :=
  let r := treeInsert keysLess item db.keys
  let cleaned : List dbItem × List index :=
    match r.2 with
    | some pdbi =>
        (if hasEx pdbi.opts then (treeDelete expsLess pdbi db.exps).1 else db.exps,
         db.idxs.map (indexRemove pdbi))
    | none => (db.exps, db.idxs)
  let exps' := if hasEx item.opts then (treeInsert expsLess item cleaned.1).1 else cleaned.1
  let idxs' := cleaned.2.map (indexAdd item)
  ({ db with keys := r.1, exps := exps', idxs := idxs' }, r.2)

/-- Source `DB.deleteFromDatabase`: delete from the keys tree by key; if
an item was found, remove it from the expires tree (when it had eviction
options) and from every index.  Returns the removed item. -/
def deleteFromDatabase (db : DB) (item : dbItem) : DB × Option dbItem :=
  let r := treeDelete keysLess item db.keys
  match r.2 with
  | some pdbi =>
      ({ db with
         keys := r.1,
         exps := if hasEx pdbi.opts then (treeDelete expsLess pdbi db.exps).1 else db.exps,
         idxs := db.idxs.map (indexRemove pdbi) }, some pdbi)
  | none => ({ db with keys := r.1 }, none)

/-- Source `DB.get`: `db.keys.Get(&dbItem{key: key})`. -/
def dbGet (db : DB) (key : String) : Option dbItem :=
  treeGet keysLess { key := key, val := "" } db.keys

/-- The back-fill of a new index's b-tree container, ascending the keys
tree: every item whose key matches the pattern is inserted (there is no
expiration check in the source's back-fill callback). -/
def backfillBtr (less : Option (String → String → Bool)) (pattern : String)
    (keys : List dbItem) : List dbItem :=
  keys.foldl (fun t dbi =>
    if wildcardMatchS dbi.key pattern then (treeInsert (indexLess less) dbi t).1
    else t) []

/-- The back-fill of a new index's r-tree container: every item whose key
matches the pattern is inserted (again with no expiration check). -/
def backfillRtr (pattern : String) (keys : List dbItem) : List dbItem :=
  keys.foldl (fun t dbi =>
    if wildcardMatchS dbi.key pattern then t ++ [dbi] else t) []

/-- Source `DB.createIndex` (the `db.closed` check is outside the model;
no claim closes the database).  An empty name or an existing name fails
with `ErrIndexExists`.  The `lessers` slice is combined by
`compositeLess`; note that for zero lessers the source still installs a
non-nil constant-false less function, so a b-tree container is always
created; an r-tree container is created exactly when a rect function is
given.  The new index is back-filled by a single ascent of the keys
tree whose callback updates the two containers independently after one
pattern check; that ascent is rendered as the two folds `backfillBtr`
and `backfillRtr`. -/
def createIndex (db : DB) (name pattern : String)
    (lessers : List (String → String → Bool))
    (rect : Option (String → List Int × List Int)) : DB × Option Err :=
  if name = "" then (db, some .indexExists)
  else if (db.idxs.find? (fun i => i.name == name)).isSome then (db, some .indexExists)
  else
    let idx1 : index :=
      { name := name, pattern := pattern,
        less := some (compositeLess lessers), rect := rect,
        btr := some (backfillBtr (some (compositeLess lessers)) pattern db.keys),
        rtr := match rect with
               | some _ => some (backfillRtr pattern db.keys)
               | none => none }
    ({ db with idxs := db.idxs ++ [idx1] }, none)

/-! ## Transactions (`Tx`, `begin`, `Set`, `Delete`, `Get`,
`rollbackInner`) -/

/-- Source `SetOptions`: `Expires bool; TTL time.Duration`. -/
structure SetOptions where
  expires : Bool
  ttl : Int

/-- Source `Tx` (the fields the claims depend on).  `db = none` models a
closed transaction (`tx.db == nil`); the `rollbacks` and `commits` maps
take nullable item pointers as values, hence `Option dbItem`. -/
structure Tx where
  db : Option DB
  writable : Bool
  rollbacks : List (String × Option dbItem)
  commits : List (String × Option dbItem)

/-- Go map read with presence bit: `v, ok := m[k]`. -/
def mapGet (k : String) (m : List (String × Option dbItem)) :
    Option (Option dbItem) :=
  (m.find? (fun p => p.1 == k)).map (·.2)

/-- Go map write `m[k] = v`. -/
def mapSet (k : String) (v : Option dbItem)
    (m : List (String × Option dbItem)) : List (String × Option dbItem) :=
  if (m.find? (fun p => p.1 == k)).isSome then
    m.map (fun p => if p.1 == k then (k, v) else p)
  else m ++ [(k, v)]

/-- Source `DB.begin` (the `db.closed` check is outside the model): a
fresh transaction with empty rollback and commit maps. -/
def beginTx (writable : Bool) (db : DB) : Tx :=
  { db := some db, writable := writable, rollbacks := [], commits := [] }

/-- The item `Tx.Set` constructs from its arguments (TTL converted to an
absolute expiration instant). -/
def setItem (now : Instant) (key value : String) (opts : Option SetOptions) :
    dbItem :=
  { key := key, val := value,
    opts :=
      match opts with
      | some o =>
          if o.expires then some { ex := true, exat := now + o.ttl }
          else none
      | none => none }

/-- Source `Tx.Set`.  Returns the new transaction state together with
`(previousValue, replaced, err)`.  Note the two rollback branches of the
source: when no previous item existed, `tx.rollbacks[key] = nil` is
written unconditionally; when one existed, the entry is written only if
the key is absent from the map. -/
def txSet (now : Instant) (tx : Tx) (key value : String)
    (opts : Option SetOptions) : Tx × String × Bool × Option Err :=
  match tx.db with
  | none => (tx, "", false, some .txClosed)
  | some db =>
      if !tx.writable then (tx, "", false, some .txNotWritable)
      else
        let item : dbItem := setItem now key value opts
        let r := insertIntoDatabase db item
        let rollbacks' :=
          match r.2 with
          | none => mapSet key none tx.rollbacks
          | some prev =>
              if (mapGet key tx.rollbacks).isSome then tx.rollbacks
              else mapSet key (some prev) tx.rollbacks
        let pv : String × Bool :=
          match r.2 with
          | some prev => if !prev.expired now then (prev.val, true) else ("", false)
          | none => ("", false)
        let commits' :=
          if db.persist then mapSet key (some item) tx.commits else tx.commits
        ({ db := some r.1, writable := tx.writable,
           rollbacks := rollbacks', commits := commits' },
         pv.1, pv.2, none)

/-- Source `Tx.Delete`.  Returns the new transaction state together with
`(val, err)`.  The rollback entry is written only if absent; an item that
physically existed but had expired is still removed yet reported
`ErrNotFound` with an empty value. -/
def txDelete (now : Instant) (tx : Tx) (key : String) :
    Tx × String × Option Err :=
  match tx.db with
  | none => (tx, "", some .txClosed)
  | some db =>
      if !tx.writable then (tx, "", some .txNotWritable)
      else
        let r := deleteFromDatabase db { key := key, val := "" }
        match r.2 with
        | none => ({ tx with db := some r.1 }, "", some .notFound)
        | some item =>
            let rollbacks' :=
              if (mapGet key tx.rollbacks).isSome then tx.rollbacks
              else mapSet key (some item) tx.rollbacks
            let commits' :=
              if db.persist then mapSet key none tx.commits else tx.commits
            let tx' : Tx := { db := some r.1, writable := tx.writable,
                              rollbacks := rollbacks', commits := commits' }
            if item.expired now then (tx', "", some .notFound)
            else (tx', item.val, none)

/-- Source `Tx.Get`: a missing or expired item yields `ErrNotFound`. -/
def txGet (now : Instant) (tx : Tx) (key : String) : String × Option Err :=
  match tx.db with
  | none => ("", some .txClosed)
  | some db =>
      match dbGet db key with
      | none => ("", some .notFound)
      | some item =>
          if item.expired now then ("", some .notFound)
          else (item.val, none)

/-- Source `Tx.rollbackInner`: for every entry of the rollback map,
delete the key from the database and, when the recorded pre-image is not
nil, reinsert it. -/
def rollbackInner (tx : Tx) : Tx :=
  match tx.db with
  | none => tx
  | some db =>
      let db' := tx.rollbacks.foldl (fun d kv =>
        let d1 := (deleteFromDatabase d { key := kv.1, val := "" }).1
        match kv.2 with
        | some item => (insertIntoDatabase d1 item).1
        | none => d1) db
      { tx with db := some db' }

/-! ## Range scans (`Tx.scan` and the `Ascend*` / `Descend*` wrappers)

The user callback is modelled with an explicit accumulator so that a
callback may carry state (including a transaction it mutates, as Go
closures do).  `scanList` runs the callback over a list of items until it
returns `false`, exactly as the b-tree traversals invoke the wrapped
iterator. -/

def scanList {σ : Type} (f : σ → String → String → σ × Bool) :
    List dbItem → σ → σ × Bool
  | [], s => (s, true)
  | x :: xs, s =>
      let r := f s x.key x.val
      if r.2 then scanList f xs r.1 else (r.1, false)

/-- Source `Tx.scan`: select the keys tree (empty index name) or the
index's b-tree (a missing index is `ErrNotFound`; an index without a
b-tree returns nil); build the two pivot items (`key` field for the keys
tree, `val` field for an index); then dispatch to the eight b-tree
traversals.  Each traversal is the corresponding sorted-range filter, in
reverse order for the descending family:
`AscendGreaterOrEqual p` visits `x` with `¬ less x p`,
`AscendLessThan p` visits `x` with `less x p`,
`AscendRange a b` visits `x` with `¬ less x a ∧ less x b`,
`DescendLessOrEqual p` visits `x` with `¬ less p x`,
`DescendGreaterThan p` visits `x` with `less p x`,
`DescendRange a b` visits `x` with `¬ less a x ∧ less b x`.
There is no expiration check anywhere on this path. -/
def txScan {σ : Type} (tx : Tx) (desc gt lt : Bool)
    (idxName start stop : String)
    (f : σ → String → String → σ × Bool) (s0 : σ) : σ × Option Err :=
  match tx.db with
  | none => (s0, some .txClosed)
  | some db =>
      let sel : Option (List dbItem × (dbItem → dbItem → Bool)) × Option Err :=
        if idxName = "" then (some (db.keys, keysLess), none)
        else
          match db.idxs.find? (fun i => i.name == idxName) with
          | none => (none, some .notFound)
          | some idx =>
              match idx.btr with
              | none => (none, none)
              | some t => (some (t, indexLess idx.less), none)
      match sel with
      | (none, e) => (s0, e)
      | (some (t, less), _) =>
          let itemA : dbItem :=
            if idxName = "" then { key := start, val := "" }
            else { key := "", val := start }
          let itemB : dbItem :=
            if idxName = "" then { key := stop, val := "" }
            else { key := "", val := stop }
          let items :=
            if desc then
              (if gt then
                 if lt then t.filter (fun x => !less itemA x && less itemB x)
                 else t.filter (fun x => less itemA x)
               else if lt then t.filter (fun x => !less itemA x)
               else t).reverse
            else
              if gt then
                if lt then t.filter (fun x => !less x itemA && less x itemB)
                else t.filter (fun x => !less x itemA)
              else if lt then t.filter (fun x => less x itemA)
              else t
          ((scanList f items s0).1, none)

/-- Source `Tx.Ascend`: `tx.scan(false, false, false, index, "", "", it)`. -/
def txAscend {σ : Type} (tx : Tx) (idxName : String)
    (f : σ → String → String → σ × Bool) (s0 : σ) : σ × Option Err :=
  txScan tx false false false idxName "" "" f s0

/-- Source `Tx.Descend`: `tx.scan(true, false, false, index, "", "", it)`. -/
def txDescend {σ : Type} (tx : Tx) (idxName : String)
    (f : σ → String → String → σ × Bool) (s0 : σ) : σ × Option Err :=
  txScan tx true false false idxName "" "" f s0

/-- The iteration trace of `Tx.Ascend`: the `(key, value)` pairs the user
callback is invoked with, for a callback that always continues. -/
def ascendKeys (tx : Tx) (idxName : String) :
    List (String × String) × Option Err :=
  txAscend tx idxName (fun s k v => (s ++ [(k, v)], true)) []

/-- The iteration trace of `Tx.Descend`. -/
def descendKeys (tx : Tx) (idxName : String) :
    List (String × String) × Option Err :=
  txDescend tx idxName (fun s k v => (s ++ [(k, v)], true)) []

/-! ## Spatial search (`Tx.Intersects`) -/

/-- Axis-aligned rectangle intersection, the r-tree's search predicate
(dimensions are paired positionally). -/
def rectOverlaps (amin amax bmin bmax : List Int) : Bool :=
  ((amin.zip amax).zip (bmin.zip bmax)).all
    (fun p => p.1.1 ≤ p.2.2 && p.2.1 ≤ p.1.2)

/-- Source `Tx.Intersects`, returning the `(key, value)` pairs passed to
the callback together with the error: a closed transaction fails with
`ErrTxClosed`; an empty index name returns nil immediately; an unknown
index name fails with `ErrNotFound`; an index without an r-tree returns
nil immediately; otherwise the query rectangle is computed by the
index's rect function and the r-tree is searched. -/
def txIntersects (tx : Tx) (idxName bounds : String) :
    List (String × String) × Option Err :=
  match tx.db with
  | none => ([], some .txClosed)
  | some db =>
      if idxName = "" then ([], none)
      else
        match db.idxs.find? (fun i => i.name == idxName) with
        | none => ([], some .notFound)
        | some idx =>
            match idx.rtr with
            | none => ([], none)
            | some t =>
                match idx.rect with
                | some rc =>
                    let q := rc bounds
                    ((t.filter (fun x =>
                        rectOverlaps q.1 q.2 (rc x.val).1 (rc x.val).2)).map
                      (fun x => (x.key, x.val)), none)
                | none => (t.map (fun x => (x.key, x.val)), none)

/-! ## The append-only log: serialization (`writeSetTo`, `writeDeleteTo`)
and the loader (`DB.load`)

Decimal formatting models `strconv.FormatUint` / `strconv.FormatInt` on
non-negative numbers; `parseInt64` models `strconv.ParseInt(s, 10, 64)`.
`readLine` models `bufio.Reader.ReadBytes('\n')`: the line up to and
including the delimiter, or the remaining data with no delimiter found
(Go reports `io.EOF` in that case). -/

/-- `'0' <= c && c <= '9'` (the Go loader's digit check is
`line[i] < '0' || line[i] > '9'`). -/
def isDigitChar (c : Char) : Bool := '0' ≤ c && c ≤ '9'

/-- The value of a decimal digit string, accumulated left to right as the
Go loader does (`n = n*10 + int(line[i]-'0')`). -/
def digitsVal (l : List Char) : Nat :=
  l.foldl (fun n c => n * 10 + (c.toNat - '0'.toNat)) 0

/-- Fuel-driven decimal formatting (one digit per division by ten,
most-significant first). -/
def natDigitsAux : Nat → Nat → List Char → List Char
  | 0, _, acc => acc
  | fuel + 1, n, acc =>
      let d := Char.ofNat ('0'.toNat + n % 10)
      if n < 10 then d :: acc
      else natDigitsAux fuel (n / 10) (d :: acc)

/-- The decimal digits of `n` (`strconv.FormatUint(n, 10)`). -/
def natDigits (n : Nat) : List Char := natDigitsAux (n + 1) n []

/-- The optional leading sign of `strconv.ParseInt`. -/
def parseSign (s : List Char) : Bool × List Char :=
  match s with
  | '+' :: t => (false, t)
  | '-' :: t => (true, t)
  | t => (false, t)

/-- `strconv.ParseInt(s, 10, 64)`: optional sign, non-empty digits,
64-bit signed range; anything else is an error (Go's `ErrSyntax` /
`ErrRange`, both surfaced by `load` as a failure). -/
def parseInt64 (s : List Char) : Except Err Int :=
  let signed : Bool × List Char := parseSign s
  if signed.2.isEmpty then .error .parseIntError
  else if !signed.2.all isDigitChar then .error .parseIntError
  else
    let v : Nat := digitsVal signed.2
    if signed.1 then
      if v ≤ 2 ^ 63 then .ok (-(v : Int)) else .error .parseIntError
    else
      if v ≤ 2 ^ 63 - 1 then .ok (v : Int) else .error .parseIntError

/-- ASCII lowering, `strings.ToLower` on the inputs at hand (the loader
only compares the result against `"ex"`). -/
def goToLower (s : List Char) : List Char :=
  s.map (fun c => if 'A' ≤ c && c ≤ 'Z' then Char.ofNat (c.toNat + 32) else c)

/-- Interpret an unbounded `Int` as Go `uint64` (two's complement). -/
def toUint64 (x : Int) : Nat := (x % (2 ^ 64 : Int)).toNat

/-- Go `time.Time.Sub`: the difference saturated to the `Duration`
(`int64` nanoseconds) range. -/
def goSub (a b : Int) : Int :=
  let d := a - b
  if d > 2 ^ 63 - 1 then 2 ^ 63 - 1
  else if d < -(2 ^ 63) then -(2 ^ 63)
  else d

/-- Source `writeHead`: the type byte, the decimal length, CRLF. -/
def writeHead (c : Char) (n : Nat) : List Char :=
  c :: natDigits n ++ ['\r', '\n']

/-- One bulk string of `writeMultiBulk`: `$len\r\n<data>\r\n`. -/
def writeBulk (b : List Char) : List Char :=
  writeHead '$' b.length ++ b ++ ['\r', '\n']

/-- Source `writeMultiBulk`: a RESP array. -/
def writeMultiBulk (bulks : List (List Char)) : List Char :=
  writeHead '*' bulks.length ++ (bulks.map writeBulk).flatten

/-- Source `dbItem.writeSetTo` at instant `now`: a SET record; when the
item has eviction options the remaining TTL is serialized as
`uint64(dbi.opts.exat.Sub(time.Now()) / time.Second)` — a truncating
signed division whose result is reinterpreted as an unsigned 64-bit
number (an already-past expiration therefore wraps around to a huge
value). -/
def writeSetTo (now : Instant) (dbi : dbItem) : List Char :=
  match dbi.opts with
  | some o =>
      if o.ex then
        writeMultiBulk ["set".data, dbi.key.data, dbi.val.data, "ex".data,
          natDigits (toUint64 (Int.tdiv (goSub o.exat now) nsPerSecond))]
      else writeMultiBulk ["set".data, dbi.key.data, dbi.val.data]
  | none => writeMultiBulk ["set".data, dbi.key.data, dbi.val.data]

/-- Source `dbItem.writeDeleteTo`: a DEL record. -/
def writeDeleteTo (dbi : dbItem) : List Char :=
  writeMultiBulk ["del".data, dbi.key.data]

/-- `bufio.Reader.ReadBytes('\n')`: the consumed line (delimiter
included) and the remaining input, or `none` when the input ends before
a delimiter (Go: the partial data with `io.EOF`). -/
def readLine : List Char → List Char × Option (List Char)
  | [] => ([], none)
  | c :: cs =>
      if c = '\n' then ([c], some cs)
      else
        let r := readLine cs
        (c :: r.1, r.2)

/-- `some mid` when `l = mid ++ ['\r', '\n']`. -/
def stripCRLF (l : List Char) : Option (List Char) :=
  match l.reverse with
  | '\n' :: '\r' :: rest => some rest.reverse
  | _ => none

/-- The loader's RESP head-number parser, applied to a full line (type
byte first, `"\r\n"` last).  The source splits on `len(line) == 4`
(single digit) versus `len(line) >= 5` (digit loop over positions
`1 .. len-3` after checking `line[len-2] == '\r'`); since every line
handed over by `ReadBytes('\n')` ends in `'\n'`, the two branches
together accept exactly a non-empty run of digits framed by CRLF and
yield its left-to-right accumulated value. -/
def parseRespNum (line : List Char) : Except Err Nat :=
  match line with
  | [] => .error .invalid
  | _ :: rest =>
      match stripCRLF rest with
      | some digits =>
          if digits.isEmpty then .error .invalid
          else if digits.all isDigitChar then .ok (digitsVal digits)
          else .error .invalid
      | none => .error .invalid

/-- The verb test for SET, exactly as the source writes it (note the
source compares `parts[0][1]`, not `parts[0][0]`, against `'S'`). -/
def isSetVerb (p : List Char) : Bool :=
  match p with
  | [c0, c1, c2] =>
      (c0 = 's' || c1 = 'S') && (c1 = 'e' || c1 = 'E') && (c2 = 't' || c2 = 'T')
  | _ => false

/-- The verb test for DEL, exactly as the source writes it (same quirk:
`parts[0][1]` is compared against `'D'`). -/
def isDelVerb (p : List Char) : Bool :=
  match p with
  | [c0, c1, c2] =>
      (c0 = 'd' || c1 = 'D') && (c1 = 'e' || c1 = 'E') && (c2 = 'l' || c2 = 'L')
  | _ => false

/-- The loader's inner loop: read `n` bulk parts.  Each part is a
`$`-headed length line (a missing delimiter surfaces the reader's
`io.EOF`), then `io.ReadFull` of `len+2` bytes (`io.EOF` when no byte is
available, `io.ErrUnexpectedEOF` when only some are) whose last two
bytes must be CRLF. -/
def readParts : Nat → List Char → Except Err (List (List Char) × List Char)
  | 0, input => .ok ([], input)
  | i + 1, input =>
      match readLine input with
      | (_, none) => .error .eof
      | (line, some rest) =>
          match line with
          | [] => .error .invalid
          | c :: _ =>
              if c ≠ '$' then .error .invalid
              else
                match parseRespNum line with
                | .error e => .error e
                | .ok n =>
                    if rest.length < n + 2 then
                      if rest.isEmpty then .error .eof
                      else .error .unexpectedEOF
                    else if (rest.drop n).take 2 = ['\r', '\n'] then
                      match readParts i (rest.drop (n + 2)) with
                      | .ok (ps, r) => .ok (rest.take n :: ps, r)
                      | .error e => .error e
                    else .error .invalid

/-- The loader's command dispatch: an empty command is skipped; the verb
must have three bytes and pass `isSetVerb` / `isDelVerb`; SET has arity
3 or 5 (5 requires a literal `"ex"` and a parsable TTL, and the item is
only inserted when
`dur := time.Duration(ex)*time.Second - now.Sub(modTime)` is positive,
with expiration `now.Add(dur)`); DEL has arity 2. -/
def applyCmd (now modTime : Instant) (db : DB) (parts : List (List Char)) :
    Except Err DB :=
  match parts with
  | [] => .ok db
  | p0 :: _ =>
      if p0.length ≠ 3 then .error .invalid
      else if isSetVerb p0 then
        match parts with
        | [_, k, v] =>
            .ok (insertIntoDatabase db { key := String.mk k, val := String.mk v }).1
        | [_, k, v, p3, p4] =>
            if goToLower p3 ≠ "ex".data then .error .invalid
            else
              match parseInt64 p4 with
              | .error e => .error e
              | .ok ex =>
                  let dur := wrap64 (ex * nsPerSecond) - goSub now modTime
                  if dur > 0 then
                    .ok (insertIntoDatabase db
                      { key := String.mk k, val := String.mk v,
                        opts := some { ex := true, exat := now + dur } }).1
                  else .ok db
        | _ => .error .invalid
      else if isDelVerb p0 then
        match parts with
        | [_, k] =>
            .ok (deleteFromDatabase db { key := String.mk k, val := "" }).1
        | _ => .error .invalid
      else .error .invalid

/-- Source `DB.load`, one command per iteration.  At the top of each
round, `ReadBytes('\n')` failing with leftover data is
`io.ErrUnexpectedEOF`; failing with no data is a clean EOF; a line not
starting with `'*'` is `ErrInvalid`.  The fuel (`load` supplies
`input.length + 1`) strictly exceeds the number of rounds, since every
round consumes at least the one-byte-or-more command line. -/
def loadLoop (now modTime : Instant) : Nat → DB → List Char → Except Err DB
  | 0, _, _ => .error .invalid
  | fuel + 1, db, input =>
      match readLine input with
      | (line, none) => if line.isEmpty then .ok db else .error .unexpectedEOF
      | (line, some rest) =>
          match line with
          | [] => .error .invalid
          | c :: _ =>
              if c ≠ '*' then .error .invalid
              else
                match parseRespNum line with
                | .error e => .error e
                | .ok n =>
                    match readParts n rest with
                    | .error e => .error e
                    | .ok (parts, rest') =>
                        match applyCmd now modTime db parts with
                        | .error e => .error e
                        | .ok db' => loadLoop now modTime fuel db' rest'

/-- Source `DB.load` on a file whose contents are `input`, loading at
instant `now` into `db`, the file's modification time being `modTime`. -/
def load (now modTime : Instant) (db : DB) (input : List Char) :
    Except Err DB :=
  loadLoop now modTime (input.length + 1) db input

/-! ## Derived definitions used by the claims -/

/-- The spec's description of a composite index ordering, written from
its words for comparison with the source combination: for each
comparator in order, if it declares strict inequality in either
direction, return that result; otherwise fall through to the next; when
all comparators tie, fall back to the byte order of the keys. -/
def lexCombine : List (String → String → Bool) → dbItem → dbItem → Bool
  | [], a, b => goStrLt a.key b.key
  | l :: ls, a, b =>
      if l a.val b.val then true
      else if l b.val a.val then false
      else lexCombine ls a b

/-- A strict weak order on values: the contract a user comparator is
expected to satisfy (the spec calls it "a strict `a < b`").  Asymmetric,
transitive, and ties are indistinguishable on either side. -/
structure IsStrictWeak (l : String → String → Bool) : Prop where
  asymm : ∀ a b, l a b = true → l b a = false
  trans : ∀ a b c, l a b = true → l b c = true → l a c = true
  tie_left : ∀ a b c, l a b = false → l b a = false → l a c = l b c
  tie_right : ∀ a b c, l a b = false → l b a = false → l c a = l c b

/-- What the generic tree lemmas need of an item comparator: asymmetry,
transitivity, and congruence of comparisons across tree-equivalent
items. -/
structure TreeOrder (less : dbItem → dbItem → Bool) : Prop where
  asymm : ∀ a b, less a b = true → less b a = false
  trans : ∀ a b c, less a b = true → less b c = true → less a c = true
  eqv_left : ∀ a b c, treeEqv less a b = true → less a c = less b c
  eqv_right : ∀ a b c, treeEqv less a b = true → less c a = less c b

/-- An empty, non-persisting database. -/
def emptyDB : DB := { keys := [], exps := [], idxs := [], persist := false }

/-- The error of a load result (`none` when loading succeeded). -/
def loadErr (r : Except Err DB) : Option Err :=
  match r with
  | .error e => some e
  | .ok _ => none

/-! ## Concrete scenarios used by the claims -/

/-- A database holding the single never-expiring item `a → "a"`. -/
def c1db : DB :=
  { keys := [{ key := "a", val := "a" }], exps := [], idxs := [],
    persist := false }

/-- Inside one write transaction on `c1db`: `Delete("a")`, then
`Set("a", "b")`. -/
def c1tx : Tx :=
  (txSet 0 ((txDelete 0 (beginTx true c1db) "a").1) "a" "b" none).1

/-- A complete RESP SET record: `set a b`. -/
def c2rec : List Char := "*3\r\n$3\r\nset\r\n$1\r\na\r\n$1\r\nb\r\n".data

/-- A database with two never-expiring items. -/
def c5db : DB :=
  { keys := [{ key := "k1", val := "v1" }, { key := "k2", val := "v2" }],
    exps := [], idxs := [], persist := false }

/-- Ascending over the keys tree of a write transaction on `c5db` while
the callback issues a `Set` of a fresh key on every visit, recording the
error each `Set` returns. -/
def c5run : (Tx × List (Option Err)) × Option Err :=
  txScan (beginTx true c5db) false false false "" "" ""
    (fun s k _ =>
      let r := txSet 0 s.1 (k ++ "x") "zz" none
      ((r.1, s.2 ++ [r.2.2.2]), true))
    (beginTx true c5db, [])

/-- An item that expires at instant 5. -/
def c3item : dbItem :=
  { key := "k", val := "v", opts := some { ex := true, exat := 5 } }

/-- A database holding only `c3item` (also in the expires tree). -/
def c3db : DB :=
  { keys := [c3item], exps := [c3item], idxs := [], persist := false }

/-- An item that expires at instant 5, for the back-fill scenario. -/
def c7item : dbItem :=
  { key := "p", val := "q", opts := some { ex := true, exat := 5 } }

/-- A database holding only `c7item`, with no indexes yet. -/
def c7db : DB :=
  { keys := [c7item], exps := [c7item], idxs := [], persist := false }

/-- A b-tree (non-spatial) index named `"b"`, accepting every key. -/
def c10idx : index :=
  { name := "b", pattern := "*", less := some (fun a b => goStrLt a b),
    rect := none, btr := some [], rtr := none }

/-- A database whose only index is the non-spatial `c10idx`. -/
def c10db : DB :=
  { keys := [], exps := [], idxs := [c10idx], persist := false }

/-- An item whose expiration lies 3.5 seconds after instant 0. -/
def c4item : dbItem :=
  { key := "a", val := "b", opts := some { ex := true, exat := 3500000000 } }

/-- An item whose expiration lies 2 seconds before instant 0. -/
def c4past : dbItem :=
  { key := "a", val := "b", opts := some { ex := true, exat := -2000000000 } }

/-- An item whose expiration lies half a second after instant 0. -/
def c4half : dbItem :=
  { key := "a", val := "b", opts := some { ex := true, exat := 500000000 } }

/-- An expired item for the Set-over-expired scenario. -/
def c8item : dbItem :=
  { key := "e", val := "old", opts := some { ex := true, exat := 5 } }

/-- A database holding only the (long-)expired `c8item`. -/
def c8db : DB :=
  { keys := [c8item], exps := [c8item], idxs := [], persist := false }

/-! ## Order-theoretic facts about the comparators -/

theorem goStrLtList_irrefl (as : List Char) : goStrLtList as as = false := by
  induction as with
  | nil => rfl
  | cons a as ih => simp [goStrLtList, ih]

theorem goStrLtList_asymm (as bs : List Char) (h : goStrLtList as bs = true) :
    goStrLtList bs as = false := by
  induction as generalizing bs with
  | nil =>
      cases bs with
      | nil => simp [goStrLtList] at h
      | cons b bs => simp [goStrLtList]
  | cons a as ih =>
      cases bs with
      | nil => simp [goStrLtList] at h
      | cons b bs =>
          simp only [goStrLtList] at h ⊢
          rcases lt_trichotomy a b with hab | hab | hab
          · simp [hab, not_lt_of_lt hab]
          · subst hab
            simp only [lt_irrefl, if_false] at h ⊢
            exact ih bs h
          · simp [hab, not_lt_of_lt hab] at h

theorem goStrLtList_trans (as bs cs : List Char)
    (h1 : goStrLtList as bs = true) (h2 : goStrLtList bs cs = true) :
    goStrLtList as cs = true := by
  induction as generalizing bs cs with
  | nil =>
      cases bs with
      | nil => simp [goStrLtList] at h1
      | cons b bs =>
          cases cs with
          | nil => simp [goStrLtList] at h2
          | cons c cs => simp [goStrLtList]
  | cons a as ih =>
      cases bs with
      | nil => simp [goStrLtList] at h1
      | cons b bs =>
          cases cs with
          | nil => simp [goStrLtList] at h2
          | cons c cs =>
              simp only [goStrLtList] at h1 h2 ⊢
              rcases lt_trichotomy a b with hab | hab | hab
              · rcases lt_trichotomy b c with hbc | hbc | hbc
                · simp [lt_trans hab hbc]
                · subst hbc; simp [hab]
                · simp [hbc, not_lt_of_lt hbc] at h2
              · subst hab
                rcases lt_trichotomy a c with hac | hac | hac
                · simp [hac]
                · subst hac
                  simp only [lt_irrefl, if_false] at h1 h2 ⊢
                  exact ih bs cs h1 h2
                · simp [hac, not_lt_of_lt hac] at h2
              · simp [hab, not_lt_of_lt hab] at h1

theorem goStrLtList_eq_of_not (as bs : List Char)
    (h1 : goStrLtList as bs = false) (h2 : goStrLtList bs as = false) :
    as = bs := by
  induction as generalizing bs with
  | nil =>
      cases bs with
      | nil => rfl
      | cons b bs => simp [goStrLtList] at h1
  | cons a as ih =>
      cases bs with
      | nil => simp [goStrLtList] at h2
      | cons b bs =>
          simp only [goStrLtList] at h1 h2
          rcases lt_trichotomy a b with hab | hab | hab
          · simp [hab] at h1
          · subst hab
            simp only [lt_irrefl, if_false] at h1 h2
            exact congrArg (a :: ·) (ih bs h1 h2)
          · simp [hab, not_lt_of_lt hab] at h2

theorem goStrLt_eq_of_not (a b : String)
    (h1 : goStrLt a b = false) (h2 : goStrLt b a = false) : a = b := by
  cases a; cases b
  exact congrArg String.mk (goStrLtList_eq_of_not _ _ h1 h2)

theorem goStrLt_irrefl (a : String) : goStrLt a a = false :=
  goStrLtList_irrefl a.data

/-- `keysLess` is a valid tree order (it is the byte order on keys). -/
theorem keysLess_order : TreeOrder keysLess := by
  refine ⟨?_, ?_, ?_, ?_⟩
  · exact fun a b h => goStrLtList_asymm _ _ h
  · exact fun a b c h1 h2 => goStrLtList_trans _ _ _ h1 h2
  · intro a b c h
    simp only [treeEqv, Bool.and_eq_true, Bool.not_eq_true'] at h
    have : a.key = b.key := goStrLt_eq_of_not _ _ h.1 h.2
    simp [keysLess, goStrLt, this]
  · intro a b c h
    simp only [treeEqv, Bool.and_eq_true, Bool.not_eq_true'] at h
    have : a.key = b.key := goStrLt_eq_of_not _ _ h.1 h.2
    simp [keysLess, goStrLt, this]

/-- Tree-equivalence under `keysLess` is key equality. -/
theorem keysLess_eqv_iff (a b : dbItem) :
    treeEqv keysLess a b = true ↔ a.key = b.key := by
  constructor
  · intro h
    simp only [treeEqv, Bool.and_eq_true, Bool.not_eq_true'] at h
    exact goStrLt_eq_of_not _ _ h.1 h.2
  · intro h
    simp [treeEqv, keysLess, goStrLt, h, goStrLtList_irrefl]

/-- Tree-equivalent items under `expsLess` have equal keys. -/
theorem expsLess_eqv_key (a b : dbItem) (h : treeEqv expsLess a b = true) :
    a.key = b.key := by
  simp only [treeEqv, Bool.and_eq_true, Bool.not_eq_true'] at h
  obtain ⟨h1, h2⟩ := h
  simp only [expsLess] at h1 h2
  rcases lt_trichotomy a.expiresAt b.expiresAt with he | he | he
  · simp [he] at h1
  · simp only [he, lt_irrefl, if_false] at h1 h2
    exact goStrLt_eq_of_not _ _ h1 h2
  · simp [he] at h2

/-- Tree-equivalent items under `expsLess` also agree on expiration. -/
theorem expsLess_eqv_expiresAt (a b : dbItem) (h : treeEqv expsLess a b = true) :
    a.expiresAt = b.expiresAt := by
  simp only [treeEqv, Bool.and_eq_true, Bool.not_eq_true'] at h
  obtain ⟨h1, h2⟩ := h
  simp only [expsLess] at h1 h2
  rcases lt_trichotomy a.expiresAt b.expiresAt with he | he | he
  · simp [he] at h1
  · exact he
  · simp [he] at h2

/-- `expsLess` is a valid tree order. -/
theorem expsLess_order : TreeOrder expsLess := by
  have key : ∀ a b, treeEqv expsLess a b = true →
      a.key = b.key ∧ a.expiresAt = b.expiresAt :=
    fun a b h => ⟨expsLess_eqv_key a b h, expsLess_eqv_expiresAt a b h⟩
  refine ⟨?_, ?_, ?_, ?_⟩
  · intro a b h
    simp only [expsLess] at h ⊢
    rcases lt_trichotomy a.expiresAt b.expiresAt with he | he | he
    · simp [he, not_lt_of_lt he]
    · simp only [he, lt_irrefl, if_false] at h ⊢
      exact goStrLtList_asymm _ _ h
    · simp [he, not_lt_of_lt he] at h
  · intro a b c h1 h2
    simp only [expsLess] at h1 h2 ⊢
    rcases lt_trichotomy a.expiresAt b.expiresAt with hab | hab | hab
    · rcases lt_trichotomy b.expiresAt c.expiresAt with hbc | hbc | hbc
      · simp [lt_trans hab hbc]
      · rw [hbc] at hab; simp [hab]
      · simp [hbc, not_lt_of_lt hbc] at h2
    · rw [hab]
      rw [hab] at h1
      simp only [lt_irrefl, if_false] at h1
      rcases lt_trichotomy b.expiresAt c.expiresAt with hbc | hbc | hbc
      · simp [hbc]
      · rw [hbc]
        rw [hbc] at h2
        simp only [lt_irrefl, if_false] at h2 ⊢
        exact goStrLtList_trans _ _ _ h1 h2
      · simp [hbc, not_lt_of_lt hbc] at h2
    · simp [hab, not_lt_of_lt hab] at h1
  · intro a b c h
    obtain ⟨hk, he⟩ := key a b h
    simp [expsLess, hk, he, goStrLt]
  · intro a b c h
    obtain ⟨hk, he⟩ := key a b h
    simp [expsLess, hk, he, goStrLt]

/-- Tree-equivalent items under an index comparator have equal keys,
for any user less function whatsoever (the key fallback guarantees it). -/
theorem indexLess_eqv_key (l : Option (String → String → Bool)) (a b : dbItem)
    (h : treeEqv (indexLess l) a b = true) : a.key = b.key := by
  simp only [treeEqv, Bool.and_eq_true, Bool.not_eq_true'] at h
  obtain ⟨h1, h2⟩ := h
  cases l with
  | none => exact goStrLt_eq_of_not _ _ h1 h2
  | some less =>
      simp only [indexLess] at h1 h2
      by_cases hab : less a.val b.val
      · simp [hab] at h1
      · by_cases hba : less b.val a.val
        · simp [hab, hba] at h2
        · simp only [hab, hba, if_false] at h1 h2
          exact goStrLt_eq_of_not _ _ h1 h2

/-- Tree-equivalent items under an index comparator tie under the user
less function. -/
theorem indexLess_eqv_tie (less : String → String → Bool) (a b : dbItem)
    (h : treeEqv (indexLess (some less)) a b = true) :
    less a.val b.val = false ∧ less b.val a.val = false := by
  simp only [treeEqv, Bool.and_eq_true, Bool.not_eq_true'] at h
  obtain ⟨h1, h2⟩ := h
  simp only [indexLess] at h1 h2
  by_cases hab : less a.val b.val
  · simp [hab] at h1
  · by_cases hba : less b.val a.val
    · simp [hab, hba] at h2
    · exact ⟨by simpa using hab, by simpa using hba⟩

/-- With a strict weak user comparator, the index comparator is a valid
tree order. -/
theorem indexLess_order (less : String → String → Bool)
    (hw : IsStrictWeak less) : TreeOrder (indexLess (some less)) := by
  refine ⟨?_, ?_, ?_, ?_⟩
  · intro a b h
    simp only [indexLess] at h ⊢
    by_cases hab : less a.val b.val
    · simp [hab, hw.asymm _ _ hab]
    · by_cases hba : less b.val a.val
      · simp [hab, hba] at h
      · simp only [hab, hba, if_false] at h ⊢
        exact goStrLtList_asymm _ _ h
  · intro a b c h1 h2
    simp only [indexLess] at h1 h2 ⊢
    cases hab : less a.val b.val with
    | true =>
        cases hbc : less b.val c.val with
        | true => simp [hw.trans _ _ _ hab hbc]
        | false =>
            cases hcb : less c.val b.val with
            | true => simp [hab, hbc, hcb] at h2
            | false =>
                have h3 : less a.val b.val = less a.val c.val :=
                  hw.tie_right _ _ _ hbc hcb
                simp [← h3, hab]
    | false =>
        cases hba : less b.val a.val with
        | true => simp [hab, hba] at h1
        | false =>
            simp only [hab, hba, if_false] at h1
            cases hbc : less b.val c.val with
            | true =>
                have : less a.val c.val = less b.val c.val :=
                  hw.tie_left _ _ _ hab hba
                simp [this, hbc]
            | false =>
                cases hcb : less c.val b.val with
                | true => simp [hbc, hcb] at h2
                | false =>
                    simp only [hbc, hcb, if_false] at h2
                    have hac : less a.val c.val = less b.val c.val :=
                      hw.tie_left _ _ _ hab hba
                    have hca : less c.val a.val = less c.val b.val :=
                      hw.tie_right _ _ _ hab hba
                    simp only [hac, hbc, hca, hcb, if_false]
                    exact goStrLtList_trans _ _ _ h1 h2
  · intro a b c h
    obtain ⟨h1, h2⟩ := indexLess_eqv_tie less a b h
    have hk := indexLess_eqv_key (some less) a b h
    have hac : less a.val c.val = less b.val c.val := hw.tie_left _ _ _ h1 h2
    have hca : less c.val a.val = less c.val b.val := hw.tie_right _ _ _ h1 h2
    simp [indexLess, hac, hca, hk, goStrLt]
  · intro a b c h
    obtain ⟨h1, h2⟩ := indexLess_eqv_tie less a b h
    have hk := indexLess_eqv_key (some less) a b h
    have hac : less a.val c.val = less b.val c.val := hw.tie_left _ _ _ h1 h2
    have hca : less c.val a.val = less c.val b.val := hw.tie_right _ _ _ h1 h2
    simp [indexLess, hac, hca, hk, goStrLt]

/-! ## Generic facts about the tree model -/

/-- A tree's list is sorted by its comparator (every element is less
than every later element). -/
def sortedBy (less : dbItem → dbItem → Bool) (l : List dbItem) : Prop :=
  l.Pairwise (fun a b => less a b = true)

theorem TreeOrder.irrefl {less : dbItem → dbItem → Bool}
    (ord : TreeOrder less) (a : dbItem) : less a a = false := by
  cases h : less a a with
  | false => rfl
  | true => have h2 := ord.asymm _ _ h; rw [h] at h2; cases h2

theorem treeEqv_refl {less : dbItem → dbItem → Bool}
    (ord : TreeOrder less) (a : dbItem) : treeEqv less a a = true := by
  simp [treeEqv, ord.irrefl]

theorem mem_treeInsert {less : dbItem → dbItem → Bool} {x y : dbItem} :
    ∀ {l : List dbItem}, y ∈ (treeInsert less x l).1 → y = x ∨ y ∈ l := by
  intro l
  induction l with
  | nil => intro h; simp [treeInsert] at h; exact Or.inl h
  | cons z zs ih =>
      intro h
      simp only [treeInsert] at h
      cases h1 : less x z with
      | true =>
          simp [h1] at h
          rcases h with h | h | h
          · exact Or.inl h
          · exact Or.inr (by simp [h])
          · exact Or.inr (by simp [h])
      | false =>
          cases h2 : less z x with
          | true =>
              simp [h1, h2] at h
              rcases h with h | h
              · exact Or.inr (by simp [h])
              · rcases ih h with h | h
                · exact Or.inl h
                · exact Or.inr (by simp [h])
          | false =>
              simp [h1, h2] at h
              rcases h with h | h
              · exact Or.inl h
              · exact Or.inr (by simp [h])

theorem self_mem_treeInsert {less : dbItem → dbItem → Bool} (x : dbItem) :
    ∀ l, x ∈ (treeInsert less x l).1 := by
  intro l
  induction l with
  | nil => simp [treeInsert]
  | cons z zs ih =>
      simp only [treeInsert]
      cases h1 : less x z with
      | true => simp [h1]
      | false =>
          cases h2 : less z x with
          | true => simp [h1, h2, ih]
          | false => simp [h1, h2]

theorem treeInsert_eqv_unique {less : dbItem → dbItem → Bool}
    (ord : TreeOrder less) (x : dbItem) :
    ∀ l, sortedBy less l →
      ∀ y ∈ (treeInsert less x l).1, treeEqv less x y = true → y = x := by
  intro l
  induction l with
  | nil =>
      intro _ y hy he
      simp [treeInsert] at hy
      exact hy
  | cons z zs ih =>
      intro hs y hy he
      rw [sortedBy, List.pairwise_cons] at hs
      obtain ⟨hz, hzs⟩ := hs
      simp only [treeInsert] at hy
      cases h1 : less x z with
      | true =>
          simp [h1] at hy
          rcases hy with rfl | rfl | hy
          · rfl
          · simp [treeEqv, h1] at he
          · have hzy := hz y hy
            have hxy := ord.trans _ _ _ h1 hzy
            simp [treeEqv, hxy] at he
      | false =>
          cases h2 : less z x with
          | true =>
              simp [h1, h2] at hy
              rcases hy with rfl | hy
              · simp [treeEqv, h2] at he
              · exact ih hzs y hy he
          | false =>
              simp [h1, h2] at hy
              rcases hy with rfl | hy
              · rfl
              · have hzy := hz y hy
                have hexz : treeEqv less x z = true := by simp [treeEqv, h1, h2]
                have hxy : less x y = less z y := ord.eqv_left _ _ _ hexz
                rw [hzy] at hxy
                simp [treeEqv, hxy] at he

theorem treeInsert_ret {less : dbItem → dbItem → Bool}
    (ord : TreeOrder less) (x p : dbItem) :
    ∀ l, sortedBy less l → p ∈ l → treeEqv less x p = true →
      (treeInsert less x l).2 = some p := by
  intro l
  induction l with
  | nil => intro _ h; simp at h
  | cons z zs ih =>
      intro hs hp he
      rw [sortedBy, List.pairwise_cons] at hs
      obtain ⟨hz, hzs⟩ := hs
      simp only [treeInsert]
      cases h1 : less x z with
      | true =>
          exfalso
          rcases List.mem_cons.mp hp with rfl | hp
          · simp [treeEqv, h1] at he
          · have hzp := hz p hp
            have hzx : less z x = less z p := ord.eqv_right _ _ _ he
            rw [hzp] at hzx
            have := ord.asymm _ _ h1
            rw [this] at hzx
            cases hzx
      | false =>
          cases h2 : less z x with
          | true =>
              rcases List.mem_cons.mp hp with rfl | hp
              · exfalso; simp [treeEqv, h2] at he
              · simp [h1, h2]
                exact ih hzs hp he
          | false =>
              rcases List.mem_cons.mp hp with rfl | hp
              · simp [h1, h2]
              · exfalso
                have hzp := hz p hp
                have hexz : treeEqv less x z = true := by simp [treeEqv, h1, h2]
                have hxp : less x p = less z p := ord.eqv_left _ _ _ hexz
                rw [hzp] at hxp
                simp [treeEqv, hxp] at he

theorem mem_treeInsert_fresh {less : dbItem → dbItem → Bool} (x : dbItem) :
    ∀ l, (∀ y ∈ l, treeEqv less x y = false) →
      ∀ z, (z ∈ (treeInsert less x l).1 ↔ z = x ∨ z ∈ l) := by
  intro l
  induction l with
  | nil => intro _ z; simp [treeInsert]
  | cons y ys ih =>
      intro hf z
      simp only [treeInsert]
      cases h1 : less x y with
      | true => simp
      | false =>
          cases h2 : less y x with
          | true =>
              have ih2 := ih (fun w hw => hf w (by simp [hw])) z
              simp only [h2, if_true, if_neg]
              constructor
              · intro h
                rcases List.mem_cons.mp h with rfl | h
                · exact Or.inr (by simp)
                · rcases (ih2).mp h with h | h
                  · exact Or.inl h
                  · exact Or.inr (by simp [h])
              · intro h
                rcases h with rfl | h
                · exact List.mem_cons.mpr (Or.inr ((ih2).mpr (Or.inl rfl)))
                · rcases List.mem_cons.mp h with rfl | h
                  · exact List.mem_cons.mpr (Or.inl rfl)
                  · exact List.mem_cons.mpr (Or.inr ((ih2).mpr (Or.inr h)))
          | false =>
              exfalso
              have := hf y (by simp)
              simp [treeEqv, h1, h2] at this

theorem mem_treeDelete {less : dbItem → dbItem → Bool} {x y : dbItem} :
    ∀ {l : List dbItem}, y ∈ (treeDelete less x l).1 → y ∈ l := by
  intro l
  induction l with
  | nil => intro h; simp [treeDelete] at h
  | cons z zs ih =>
      intro h
      simp only [treeDelete] at h
      cases h1 : less x z with
      | true =>
          simp [h1] at h
          rcases h with h | h
          · simp [h]
          · simp [h]
      | false =>
          cases h2 : less z x with
          | true =>
              simp [h1, h2] at h
              rcases h with h | h
              · simp [h]
              · simp [ih h]
          | false =>
              simp [h1, h2] at h
              simp [h]

theorem treeDelete_eqv_not_mem {less : dbItem → dbItem → Bool}
    (ord : TreeOrder less) (x : dbItem) :
    ∀ l, sortedBy less l →
      ∀ y ∈ (treeDelete less x l).1, treeEqv less x y = true → False := by
  intro l
  induction l with
  | nil => intro _ y hy; simp [treeDelete] at hy
  | cons z zs ih =>
      intro hs y hy he
      rw [sortedBy, List.pairwise_cons] at hs
      obtain ⟨hz, hzs⟩ := hs
      simp only [treeDelete] at hy
      cases h1 : less x z with
      | true =>
          simp [h1] at hy
          rcases hy with rfl | hy
          · simp [treeEqv, h1] at he
          · have hzy := hz y hy
            have hxy := ord.trans _ _ _ h1 hzy
            simp [treeEqv, hxy] at he
      | false =>
          cases h2 : less z x with
          | true =>
              simp [h1, h2] at hy
              rcases hy with rfl | hy
              · simp [treeEqv, h2] at he
              · exact ih hzs y hy he
          | false =>
              simp [h1, h2] at hy
              have hzy := hz y hy
              have hexz : treeEqv less x z = true := by simp [treeEqv, h1, h2]
              have hxy : less x y = less z y := ord.eqv_left _ _ _ hexz
              rw [hzy] at hxy
              simp [treeEqv, hxy] at he

/-- Running the collecting callback over a list of items visits every
item, in order. -/
theorem scanList_collect (l : List dbItem) (acc : List (String × String)) :
    scanList (fun s k v => (s ++ [(k, v)], true)) l acc =
      (acc ++ l.map (fun i => (i.key, i.val)), true) := by
  induction l generalizing acc with
  | nil => simp [scanList]
  | cons x xs ih => simp [scanList, ih]

/-- `Tx.Ascend` over the keys tree visits every item of the keys tree in
order — with no expiration filtering. -/
theorem ascendKeys_keys_eq (db : DB) :
    ascendKeys (beginTx false db) "" =
      (db.keys.map (fun i => (i.key, i.val)), none) := by
  simp [ascendKeys, txAscend, txScan, beginTx, scanList_collect]

/-- `Tx.Descend` over the keys tree visits every item of the keys tree
in reverse order — with no expiration filtering. -/
theorem descendKeys_keys_eq (db : DB) :
    descendKeys (beginTx false db) "" =
      (db.keys.reverse.map (fun i => (i.key, i.val)), none) := by
  simp [descendKeys, txDescend, txScan, beginTx, scanList_collect]

/-- `Tx.Ascend` over a named index visits every item of the index's
b-tree container in order — with no expiration filtering. -/
theorem ascendKeys_idx_eq (db : DB) (name : String) (idx : index)
    (t : List dbItem) (hname : name ≠ "")
    (hfind : db.idxs.find? (fun i => i.name == name) = some idx)
    (hbtr : idx.btr = some t) :
    ascendKeys (beginTx false db) name =
      (t.map (fun i => (i.key, i.val)), none) := by
  simp [ascendKeys, txAscend, txScan, beginTx, hname, hfind, hbtr,
    scanList_collect]

/-- The membership characterization of `backfillRtr`: exactly the
matching items, irrespective of expiration. -/
theorem mem_backfillRtr (pattern : String) (keys : List dbItem) (x : dbItem) :
    x ∈ backfillRtr pattern keys ↔
      x ∈ keys ∧ wildcardMatchS x.key pattern = true := by
  have aux : ∀ (ks t : List dbItem),
      ks.foldl (fun t dbi =>
          if wildcardMatchS dbi.key pattern then t ++ [dbi] else t) t
        = t ++ ks.filter (fun dbi => wildcardMatchS dbi.key pattern) := by
    intro ks
    induction ks with
    | nil => intro t; simp
    | cons d ds ih =>
        intro t
        cases h : wildcardMatchS d.key pattern with
        | true => simp [h, ih]
        | false => simp [h, ih]
  simp [backfillRtr, aux, List.mem_filter]

/-- The membership characterization of `backfillBtr`: exactly the
matching items, irrespective of expiration (the keys tree holds at most
one item per key, so no back-fill insertion ever replaces another). -/
theorem mem_backfillBtr (less : Option (String → String → Bool))
    (pattern : String) (keys : List dbItem)
    (hdist : keys.Pairwise (fun a b => a.key ≠ b.key)) (x : dbItem) :
    x ∈ backfillBtr less pattern keys ↔
      x ∈ keys ∧ wildcardMatchS x.key pattern = true := by
  suffices aux : ∀ (ks t : List dbItem),
      ks.Pairwise (fun a b => a.key ≠ b.key) →
      (∀ a ∈ t, ∀ b ∈ ks, a.key ≠ b.key) →
      ∀ x, (x ∈ ks.foldl (fun t dbi =>
          if wildcardMatchS dbi.key pattern then
            (treeInsert (indexLess less) dbi t).1
          else t) t ↔
        x ∈ t ∨ (x ∈ ks ∧ wildcardMatchS x.key pattern = true)) by
    have h := aux keys [] hdist (by simp) x
    rw [backfillBtr]
    rw [h]
    simp
  intro ks
  induction ks with
  | nil => intro t _ _ x; simp
  | cons d ds ih =>
      intro t hp hf x
      rw [List.pairwise_cons] at hp
      obtain ⟨hd, hds⟩ := hp
      cases h : wildcardMatchS d.key pattern with
      | false =>
          have step := ih t hds (fun a ha b hb => hf a ha b (by simp [hb])) x
          rw [List.foldl_cons, if_neg (by simp [h])]
          rw [step]
          constructor
          · rintro (hx | ⟨hx, hm⟩)
            · exact Or.inl hx
            · exact Or.inr ⟨by simp [hx], hm⟩
          · rintro (hx | ⟨hx, hm⟩)
            · exact Or.inl hx
            · rcases List.mem_cons.mp hx with rfl | hx
              · rw [h] at hm; cases hm
              · exact Or.inr ⟨hx, hm⟩
      | true =>
          have hfresh : ∀ y ∈ t, treeEqv (indexLess less) d y = false := by
            intro y hy
            cases he : treeEqv (indexLess less) d y with
            | false => rfl
            | true =>
                have := indexLess_eqv_key less d y he
                exact absurd this.symm (hf y hy d (by simp))
          have hmem := mem_treeInsert_fresh d t hfresh
          have hf' : ∀ a ∈ (treeInsert (indexLess less) d t).1, ∀ b ∈ ds,
              a.key ≠ b.key := by
            intro a ha b hb
            rcases (hmem a).mp ha with rfl | ha
            · exact hd b hb
            · exact hf a ha b (by simp [hb])
          have step := ih (treeInsert (indexLess less) d t).1 hds hf' x
          rw [List.foldl_cons, if_pos h]
          rw [step, hmem x]
          constructor
          · rintro ((rfl | hx) | ⟨hx, hm⟩)
            · exact Or.inr ⟨by simp, h⟩
            · exact Or.inl hx
            · exact Or.inr ⟨by simp [hx], hm⟩
          · rintro (hx | ⟨hx, hm⟩)
            · exact Or.inl (Or.inr hx)
            · rcases List.mem_cons.mp hx with rfl | hx
              · exact Or.inl (Or.inl rfl)
              · exact Or.inr ⟨hx, hm⟩

/-! # The claims -/

/-- **C1.** The claim says rollback is a right-inverse of mutations and
that a rollback entry is written only if absent.  The code is wrong: in
`Tx.Set`, when the key has no current item (here because the same
transaction just deleted it), `tx.rollbacks[key] = nil` is written
*unconditionally*, overwriting the recorded pre-image.  Starting from
`a → "a"`, running `Delete("a"); Set("a", "b")` and rolling back leaves
the rollback entry `nil` and the keys tree empty, instead of restoring
`a → "a"`.  The repository's own test `TestTransactionLeak`
(issue #69) requires `Get("a") = "a"` after exactly this rollback, so
this is a code bug rather than a spec error. -/
theorem C1_rollback_loses_first_preimage :
    dbGet c1db "a" = some { key := "a", val := "a" } ∧
    mapGet "a" c1tx.rollbacks = some none ∧
    (rollbackInner c1tx).db.map DB.keys = some [] := by decide

/-- **C2.** The claim says a log whose valid records are followed by a
truncated final record loads successfully, the partial tail being
ignored.  The code is wrong: the loader returns `io.ErrUnexpectedEOF`
(or the reader's EOF error) instead of stopping cleanly, so `Open`
fails.  Both truncation shapes are exercised: a record cut inside a bulk
string, and a final line with no terminating newline; the same prefix
alone loads fine.  The repository's own test `TestReloadNotInvalid`
truncates the file at a random point and requires the reopen to
succeed, so this is a code bug rather than a spec error. -/
theorem C2_truncated_tail_rejected :
    loadErr (load 0 0 emptyDB (c2rec ++ "*3\r\n$3\r\nset\r\n$1\r\nc".data))
        = some .unexpectedEOF ∧
    loadErr (load 0 0 emptyDB (c2rec ++ "*3".data)) = some .unexpectedEOF ∧
    (load 0 0 emptyDB c2rec).toOption.map
        (fun d => d.keys.map (fun i => (i.key, i.val))) = some [("a", "b")] := by
  decide

/-- **C5.** The claim says `Set`/`Delete` from inside an iteration
callback fail with a distinct "iterating" error and do not mutate the
tree being traversed.  The code is wrong: this revision defines no such
error (the model's `Err` mirrors the source's full error list) and
`Tx.Set` performs no iteration check, so both `Set` calls issued from
inside an `Ascend` over the keys tree return no error and the keys tree
is mutated mid-iteration.  The repository's own test
`TestMutatingIterator` requires `ErrTxIterating` from exactly these
calls, so this is a code bug rather than a spec error. -/
theorem C5_mutation_during_iteration_not_rejected :
    c5run.1.2 = [none, none] ∧ c5run.2 = none ∧
    c5run.1.1.db.map (fun d => d.keys.map dbItem.key) =
      some ["k1", "k1x", "k2", "k2x"] := by decide

/-- **C3 counterexample.** The claim says range iteration never invokes
the callback with an expired item.  On a database whose only item is
expired at the current instant, `Ascend` over the keys tree invokes the
callback with exactly that item's key and value. -/
theorem C3_counterexample_expired_item_visited :
    c3item.expired 10 = true ∧
    (ascendKeys (beginTx false c3db) "").1 = [("k", "v")] := by decide

/-- **C3 amended.** Range iteration performs no expiration filtering:
an item present in the iterated tree is passed to the callback even
when it is expired at the current instant — for `Ascend` and `Descend`
over the keys tree, and for `Ascend` over any index's b-tree container.
(Only `Get`, `Delete` and `TTL` treat expired items as absent; expired
items leave the trees when the background manager evicts them.) -/
theorem C3_amended_iteration_visits_expired (db : DB) (now : Instant)
    (item : dbItem) (_hexp : item.expired now = true) :
    (item ∈ db.keys →
      (item.key, item.val) ∈ (ascendKeys (beginTx false db) "").1 ∧
      (item.key, item.val) ∈ (descendKeys (beginTx false db) "").1) ∧
    (∀ name idx t, name ≠ "" →
      db.idxs.find? (fun i => i.name == name) = some idx → idx.btr = some t →
      item ∈ t →
      (item.key, item.val) ∈ (ascendKeys (beginTx false db) name).1) := by
  constructor
  · intro hmem
    rw [ascendKeys_keys_eq, descendKeys_keys_eq]
    exact ⟨List.mem_map_of_mem _ hmem,
      List.mem_map_of_mem _ (List.mem_reverse.mpr hmem)⟩
  · intro name idx t hname hfind hbtr hmem
    rw [ascendKeys_idx_eq db name idx t hname hfind hbtr]
    exact List.mem_map_of_mem _ hmem

/-- Witness for C3: the amended theorem applied to the concrete expired
item of `c3db`. -/
theorem C3_amended_witness :
    c3item.expired 10 = true ∧
    ("k", "v") ∈ (ascendKeys (beginTx false c3db) "").1 ∧
    ("k", "v") ∈ (descendKeys (beginTx false c3db) "").1 := by
  refine ⟨by decide, ?_⟩
  exact (C3_amended_iteration_visits_expired c3db 10 c3item (by decide)).1
    (by decide)

/-- **C7 counterexample.** The claim says index back-fill excludes items
already expired at creation time.  On a database whose only item is
expired, both a b-tree index and a spatial index created afterwards
contain that item. -/
theorem C7_counterexample_backfill_includes_expired :
    c7item.expired 10 = true ∧
    ((createIndex c7db "i" "*" [fun a b => goStrLt a b] none).1.idxs.map
        index.btr = [some [c7item]]) ∧
    ((createIndex c7db "s" "*" []
        (some (fun _ => ([0], [0])))).1.idxs.map index.rtr
      = [some [c7item]]) := by
  refine ⟨by decide, ?_, ?_⟩ <;>
    simp [createIndex, backfillBtr, backfillRtr, c7db, c7item,
      wildcardMatchS, wildcardMatch, treeInsert]

/-- **C7 amended.** Creating an index back-fills its containers with
exactly the items of the keys tree whose keys match the pattern — with
no expiration check, so items already expired at creation time are
included (the counterexample exhibits one). -/
theorem C7_amended_backfill_exactly_matching (db : DB) (name pattern : String)
    (lessers : List (String → String → Bool))
    (rect : Option (String → List Int × List Int))
    (hname : name ≠ "")
    (hnew : (db.idxs.find? (fun i => i.name == name)).isSome = false)
    (hdist : db.keys.Pairwise (fun a b => a.key ≠ b.key)) :
    ∃ idx1 : index,
      (createIndex db name pattern lessers rect).1.idxs = db.idxs ++ [idx1] ∧
      (createIndex db name pattern lessers rect).2 = none ∧
      (∀ t, idx1.btr = some t → ∀ x,
        (x ∈ t ↔ x ∈ db.keys ∧ wildcardMatchS x.key pattern = true)) ∧
      (∀ t, idx1.rtr = some t → ∀ x,
        (x ∈ t ↔ x ∈ db.keys ∧ wildcardMatchS x.key pattern = true)) := by
  refine ⟨{ name := name, pattern := pattern,
            less := some (compositeLess lessers), rect := rect,
            btr := some (backfillBtr (some (compositeLess lessers)) pattern
              db.keys),
            rtr := match rect with
                   | some _ => some (backfillRtr pattern db.keys)
                   | none => none }, ?_, ?_, ?_, ?_⟩
  · simp [createIndex, hname, hnew]
  · simp [createIndex, hname, hnew]
  · intro t ht x
    simp only [Option.some.injEq] at ht
    rw [← ht]
    exact mem_backfillBtr _ _ _ hdist x
  · intro t ht x
    cases rect with
    | none => cases ht
    | some rc =>
        simp only [Option.some.injEq] at ht
        rw [← ht]
        exact mem_backfillRtr _ _ x

/-- Witness for C7: the amended theorem applied to the concrete database
`c7db` (whose only item is expired). -/
theorem C7_amended_witness :
    ("i" : String) ≠ "" ∧
    (c7db.idxs.find? (fun i => i.name == "i")).isSome = false ∧
    c7db.keys.Pairwise (fun a b => a.key ≠ b.key) ∧
    (∃ idx1 : index,
      (createIndex c7db "i" "*" [fun a b => goStrLt a b] none).1.idxs
        = c7db.idxs ++ [idx1] ∧
      (createIndex c7db "i" "*" [fun a b => goStrLt a b] none).2 = none ∧
      (∀ t, idx1.btr = some t → ∀ x,
        (x ∈ t ↔ x ∈ c7db.keys ∧ wildcardMatchS x.key "*" = true)) ∧
      (∀ t, idx1.rtr = some t → ∀ x,
        (x ∈ t ↔ x ∈ c7db.keys ∧ wildcardMatchS x.key "*" = true))) :=
  ⟨by decide, by decide, by decide,
   C7_amended_backfill_exactly_matching c7db "i" "*" [fun a b => goStrLt a b]
     none (by decide) (by decide) (by decide)⟩

/-- **C9.** The claim says stray NUL bytes before a record are skipped
and loading succeeds.  The code is wrong: `DB.load` requires the first
byte of every command line to be `'*'` and returns `ErrInvalid`
otherwise, with no NUL skipping, so prepending a single NUL byte to a
valid SET record makes loading fail with `ErrInvalid`.  The
repository's own format test (`testFormat` with `expectValid = true` on
`"\x00*3\r\n..."`, the "commands with nuls" case) requires exactly this
input to load successfully, so this is a code bug rather than a spec
error. -/
theorem C9_nul_prefixed_log_rejected :
    loadErr (load 0 0 emptyDB ('\x00' :: c2rec)) = some .invalid := by decide

/-- The general form of the C9 defect: the staged loader performs no
NUL skipping at all — any input beginning with a NUL byte fails to
load, with `ErrInvalid` when the line is newline-terminated, or with
the unexpected-EOF error when no newline remains. -/
theorem C9_leading_nul_always_fails (now modTime : Instant)
    (db : DB) (rest : List Char) :
    ∃ e, load now modTime db ('\x00' :: rest) = .error e ∧
      (e = Err.invalid ∨ e = Err.unexpectedEOF) := by
  have hlen : ('\x00' :: rest).length + 1 = rest.length + 1 + 1 := by simp
  unfold load
  rw [hlen]
  simp only [loadLoop, readLine]
  cases hr : (readLine rest).2 with
  | none =>
      refine ⟨.unexpectedEOF, ?_, Or.inr rfl⟩
      simp [hr]
  | some r =>
      refine ⟨.invalid, ?_, Or.inl rfl⟩
      simp [hr]

/-- **C10.** `Tx.Intersects` with the empty index name returns nil
without invoking the callback; with the name of an existing non-spatial
index it also returns nil without invoking the callback; only a
non-empty name matching no index returns `ErrNotFound`. -/
theorem C10_intersects_silent_cases (db : DB) (name bounds : String) :
    txIntersects (beginTx false db) "" bounds = ([], none) ∧
    (∀ idx, db.idxs.find? (fun i => i.name == name) = some idx →
      idx.rtr = none →
      txIntersects (beginTx false db) name bounds = ([], none)) ∧
    (name ≠ "" → db.idxs.find? (fun i => i.name == name) = none →
      txIntersects (beginTx false db) name bounds = ([], some .notFound)) := by
  refine ⟨?_, ?_, ?_⟩
  · simp [txIntersects, beginTx]
  · intro idx hfind hrtr
    by_cases hname : name = ""
    · simp [txIntersects, beginTx, hname]
    · simp [txIntersects, beginTx, hname, hfind, hrtr]
  · intro hname hfind
    simp [txIntersects, beginTx, hname, hfind]

/-- Witness for C10 on `c10db`: its single index `"b"` is non-spatial. -/
theorem C10_witness :
    txIntersects (beginTx false c10db) "" "[1],[2]" = ([], none) ∧
    txIntersects (beginTx false c10db) "b" "[1],[2]" = ([], none) ∧
    txIntersects (beginTx false c10db) "nope" "[1],[2]"
      = ([], some .notFound) :=
  ⟨(C10_intersects_silent_cases c10db "b" "[1],[2]").1,
   (C10_intersects_silent_cases c10db "b" "[1],[2]").2.1 c10idx rfl rfl,
   (C10_intersects_silent_cases c10db "nope" "[1],[2]").2.2 (by decide) rfl⟩

/-- When the spec's lexicographic combination ties in both directions,
the two items have equal keys (the final fallback is the key order). -/
theorem lexCombine_eq_of_not (lessers : List (String → String → Bool))
    (a b : dbItem) (h1 : lexCombine lessers a b = false)
    (h2 : lexCombine lessers b a = false) : a.key = b.key := by
  induction lessers with
  | nil => exact goStrLt_eq_of_not _ _ h1 h2
  | cons l ls ih =>
      simp only [lexCombine] at h1 h2
      cases hab : l a.val b.val with
      | true => simp [hab] at h1
      | false =>
          cases hba : l b.val a.val with
          | true => simp [hab, hba] at h2
          | false =>
              simp only [hab, hba, if_false] at h1 h2
              exact ih h1 h2

/-- **C6.** For an index created with at least one comparator, the
effective b-tree ordering (the source's `compositeLess` combination
wrapped by `dbItem.Less`) is exactly the spec's lexicographic
combination with key fallback; and two items with distinct keys never
compare equal under it. -/
theorem C6_composite_ordering_lexicographic
    (lessers : List (String → String → Bool)) (_hne : lessers ≠ [])
    (a b : dbItem) (hkey : a.key ≠ b.key) :
    indexLess (some (compositeLess lessers)) a b = lexCombine lessers a b ∧
    (lexCombine lessers a b = true ∨ lexCombine lessers b a = true) := by
  constructor
  · clear hkey
    induction lessers with
    | nil => simp [indexLess, compositeLess, lexCombine, goStrLt]
    | cons l ls ih =>
        cases ls with
        | nil => simp [indexLess, compositeLess, lexCombine, goStrLt]
        | cons l2 ls2 =>
            cases hab : l a.val b.val with
            | true => simp [indexLess, compositeLess, lexCombine, hab]
            | false =>
                cases hba : l b.val a.val with
                | true => simp [indexLess, compositeLess, lexCombine, hab, hba]
                | false =>
                    have e1 : compositeLess (l :: l2 :: ls2) a.val b.val
                        = compositeLess (l2 :: ls2) a.val b.val := by
                      simp [compositeLess, hab, hba]
                    have e2 : compositeLess (l :: l2 :: ls2) b.val a.val
                        = compositeLess (l2 :: ls2) b.val a.val := by
                      simp [compositeLess, hab, hba]
                    have e3 : lexCombine (l :: l2 :: ls2) a b
                        = lexCombine (l2 :: ls2) a b := by
                      simp [lexCombine, hab, hba]
                    rw [e3, ← ih (List.cons_ne_nil _ _)]
                    simp only [indexLess, e1, e2]
  · cases h1 : lexCombine lessers a b with
    | true => exact Or.inl rfl
    | false =>
        cases h2 : lexCombine lessers b a with
        | true => exact Or.inr rfl
        | false => exact absurd (lexCombine_eq_of_not lessers a b h1 h2) hkey

/-- Witness for C6: a singleton comparator list and two items with
distinct keys. -/
theorem C6_witness :
    ([fun a b => goStrLt a b] : List (String → String → Bool)) ≠ [] ∧
    ({ key := "x", val := "1" } : dbItem).key
      ≠ ({ key := "y", val := "2" } : dbItem).key ∧
    (indexLess (some (compositeLess [fun a b => goStrLt a b]))
        { key := "x", val := "1" } { key := "y", val := "2" }
      = lexCombine [fun a b => goStrLt a b]
          { key := "x", val := "1" } { key := "y", val := "2" } ∧
     (lexCombine [fun a b => goStrLt a b]
          { key := "x", val := "1" } { key := "y", val := "2" } = true ∨
      lexCombine [fun a b => goStrLt a b]
          { key := "y", val := "2" } { key := "x", val := "1" } = true)) :=
  ⟨List.cons_ne_nil _ _, by decide,
   C6_composite_ordering_lexicographic [fun a b => goStrLt a b]
     (List.cons_ne_nil _ _) { key := "x", val := "1" }
     { key := "y", val := "2" } (by decide)⟩

/-- A keys tree sorted by `keysLess` holds at most one item per key. -/
theorem keys_inj_of_sorted {l : List dbItem} (h : sortedBy keysLess l) :
    ∀ x ∈ l, ∀ y ∈ l, x.key = y.key → x = y := by
  have h' : l.Pairwise (fun a b => a.key ≠ b.key) := by
    refine h.imp ?_
    intro a b hab hk
    rw [keysLess, goStrLt, hk, goStrLtList_irrefl] at hab
    cases hab
  intro x hx y hy hk
  by_contra hne
  have hsym : Symmetric (fun a b : dbItem => a.key ≠ b.key) :=
    fun a b hab hk => hab hk.symm
  exact h'.forall hsym hx hy hne hk

/-- An expired item has eviction options set. -/
theorem expired_hasEx {now : Instant} {i : dbItem} (h : i.expired now = true) :
    hasEx i.opts = true := by
  cases ho : i.opts with
  | none => rw [dbItem.expired, ho] at h; cases h
  | some o =>
      rw [dbItem.expired, ho] at h
      simp only [Bool.and_eq_true] at h
      simp [hasEx, h.1]

/-- **C8.** Setting a key whose current item has already expired reports
an empty previous value, `replaced = false` and no error, even though a
prior item physically existed; and afterwards that prior item is gone
from every tree: the new item is in the keys tree, and in the keys tree,
the expires tree and every index container the only item carrying the
key is the new one.  The well-formedness hypotheses state that the trees
are sorted by their comparators, that the auxiliary containers hold only
items of the keys tree (without duplicates), and that every index
comparator behaves as an order. -/
theorem C8_set_over_expired (now : Instant) (db : DB) (k v : String)
    (opts : Option SetOptions) (prev : dbItem)
    (hkeys : sortedBy keysLess db.keys)
    (hexpsub : ∀ x ∈ db.exps, x ∈ db.keys)
    (hexps : sortedBy expsLess db.exps)
    (hbtr : ∀ idx ∈ db.idxs, ∀ t, idx.btr = some t →
      sortedBy (indexLess idx.less) t ∧ (∀ x ∈ t, x ∈ db.keys) ∧
      TreeOrder (indexLess idx.less))
    (hrtr : ∀ idx ∈ db.idxs, ∀ t, idx.rtr = some t →
      (∀ x ∈ t, x ∈ db.keys) ∧ t.Nodup)
    (hget : dbGet db k = some prev)
    (hexp : prev.expired now = true) :
    (txSet now (beginTx true db) k v opts).2 = ("", false, none) ∧
    ∃ db', (txSet now (beginTx true db) k v opts).1.db = some db' ∧
      setItem now k v opts ∈ db'.keys ∧
      (∀ x ∈ db'.keys, x.key = k → x = setItem now k v opts) ∧
      (∀ x ∈ db'.exps, x.key = k → x = setItem now k v opts) ∧
      (∀ idx ∈ db'.idxs, ∀ t, idx.btr = some t →
        ∀ x ∈ t, x.key = k → x = setItem now k v opts) ∧
      (∀ idx ∈ db'.idxs, ∀ t, idx.rtr = some t →
        ∀ x ∈ t, x.key = k → x = setItem now k v opts) := by
  have hprevmem : prev ∈ db.keys := List.mem_of_find?_eq_some hget
  have heqv0 : treeEqv keysLess { key := k, val := "" } prev = true :=
    List.find?_some hget
  have hpk : prev.key = k := ((keysLess_eqv_iff _ _).mp heqv0).symm
  have hik : (setItem now k v opts).key = k := rfl
  have heqv : treeEqv keysLess (setItem now k v opts) prev = true :=
    (keysLess_eqv_iff _ _).mpr (by rw [hik, hpk])
  have hins : (treeInsert keysLess (setItem now k v opts) db.keys).2
      = some prev :=
    treeInsert_ret keysLess_order _ prev db.keys hkeys hprevmem heqv
  have hins2 : (insertIntoDatabase db (setItem now k v opts)).2 = some prev := by
    rw [show (insertIntoDatabase db (setItem now k v opts)).2
        = (treeInsert keysLess (setItem now k v opts) db.keys).2 from rfl]
    exact hins
  have hEx : hasEx prev.opts = true := expired_hasEx hexp
  have hkinj := keys_inj_of_sorted hkeys
  have hkeys' : (insertIntoDatabase db (setItem now k v opts)).1.keys
      = (treeInsert keysLess (setItem now k v opts) db.keys).1 := rfl
  have hexps' : (insertIntoDatabase db (setItem now k v opts)).1.exps
      = (if hasEx (setItem now k v opts).opts then
          (treeInsert expsLess (setItem now k v opts)
            (treeDelete expsLess prev db.exps).1).1
        else (treeDelete expsLess prev db.exps).1) := by
    simp only [insertIntoDatabase, hins, hEx, if_true]
  have hidxs' : (insertIntoDatabase db (setItem now k v opts)).1.idxs
      = (db.idxs.map (indexRemove prev)).map (indexAdd (setItem now k v opts)) := by
    simp only [insertIntoDatabase, hins]
  -- the item that remains only if it is the new one, in the delete result
  have hDexps : ∀ x ∈ (treeDelete expsLess prev db.exps).1, x.key = k → False := by
    intro x hxD hxk
    have hxexps : x ∈ db.exps := mem_treeDelete hxD
    have hxkeys : x ∈ db.keys := hexpsub x hxexps
    have hxprev : x = prev := hkinj x hxkeys prev hprevmem (by rw [hxk, ← hpk])
    subst hxprev
    exact treeDelete_eqv_not_mem expsLess_order x db.exps hexps x hxD
      (treeEqv_refl expsLess_order x)
  refine ⟨?_, (insertIntoDatabase db (setItem now k v opts)).1, ?_, ?_, ?_, ?_, ?_, ?_⟩
  · simp only [txSet, beginTx, Bool.not_true, hins2, hexp]
    simp
  · simp only [txSet, beginTx, Bool.not_true, hins2, hexp]
    simp
  · rw [hkeys']
    exact self_mem_treeInsert _ db.keys
  · intro x hx hxk
    rw [hkeys'] at hx
    exact treeInsert_eqv_unique keysLess_order _ db.keys hkeys x hx
      ((keysLess_eqv_iff _ _).mpr (by rw [hik, hxk]))
  · intro x hx hxk
    rw [hexps'] at hx
    cases hie : hasEx (setItem now k v opts).opts with
    | true =>
        rw [hie, if_pos rfl] at hx
        rcases mem_treeInsert hx with rfl | hxD
        · rfl
        · exact absurd hxk (fun hxk => hDexps x hxD hxk)
    | false =>
        rw [hie] at hx
        simp only [Bool.false_eq_true, if_false] at hx
        exact absurd hxk (fun hxk => hDexps x hx hxk)
  · intro idx' hidx' t ht x hx hxk
    rw [hidxs'] at hidx'
    rcases List.mem_map.mp hidx' with ⟨idx1, hidx1, rfl⟩
    rcases List.mem_map.mp hidx1 with ⟨idx0, hidx0, rfl⟩
    cases h0 : idx0.btr with
    | none =>
        exfalso
        have : (indexAdd (setItem now k v opts) (indexRemove prev idx0)).btr
            = none := by
          cases hm : wildcardMatchS (setItem now k v opts).key idx0.pattern <;>
            simp [indexAdd, indexRemove, h0, hm]
        rw [this] at ht
        cases ht
    | some t0 =>
        obtain ⟨hsort0, hsub0, hord0⟩ := hbtr idx0 hidx0 t0 h0
        have hD0 : ∀ y ∈ (treeDelete (indexLess idx0.less) prev t0).1,
            y.key = k → False := by
          intro y hyD hyk
          have hyt0 : y ∈ t0 := mem_treeDelete hyD
          have hykeys : y ∈ db.keys := hsub0 y hyt0
          have hyprev : y = prev :=
            hkinj y hykeys prev hprevmem (by rw [hyk, ← hpk])
          subst hyprev
          exact treeDelete_eqv_not_mem hord0 y t0 hsort0 y hyD
            (treeEqv_refl hord0 y)
        cases hm : wildcardMatchS (setItem now k v opts).key idx0.pattern with
        | true =>
            have hbt : (indexAdd (setItem now k v opts)
                (indexRemove prev idx0)).btr
                = some (treeInsert (indexLess idx0.less) (setItem now k v opts)
                    (treeDelete (indexLess idx0.less) prev t0).1).1 := by
              simp [indexAdd, indexRemove, h0, hm]
            rw [hbt] at ht
            injection ht with ht
            rw [← ht] at hx
            rcases mem_treeInsert hx with rfl | hxD
            · rfl
            · exact absurd hxk (fun hxk => hD0 x hxD hxk)
        | false =>
            have hbt : (indexAdd (setItem now k v opts)
                (indexRemove prev idx0)).btr
                = some (treeDelete (indexLess idx0.less) prev t0).1 := by
              simp [indexAdd, indexRemove, h0, hm]
            rw [hbt] at ht
            injection ht with ht
            rw [← ht] at hx
            exact absurd hxk (fun hxk => hD0 x hx hxk)
  · intro idx' hidx' t ht x hx hxk
    rw [hidxs'] at hidx'
    rcases List.mem_map.mp hidx' with ⟨idx1, hidx1, rfl⟩
    rcases List.mem_map.mp hidx1 with ⟨idx0, hidx0, rfl⟩
    cases h0 : idx0.rtr with
    | none =>
        exfalso
        have : (indexAdd (setItem now k v opts) (indexRemove prev idx0)).rtr
            = none := by
          cases hm : wildcardMatchS (setItem now k v opts).key idx0.pattern <;>
            simp [indexAdd, indexRemove, h0, hm]
        rw [this] at ht
        cases ht
    | some t0 =>
        obtain ⟨hsub0, hnd0⟩ := hrtr idx0 hidx0 t0 h0
        have hD0 : ∀ y ∈ t0.erase prev, y.key = k → False := by
          intro y hyD hyk
          have hyt0 : y ∈ t0 := List.mem_of_mem_erase hyD
          have hykeys : y ∈ db.keys := hsub0 y hyt0
          have hyprev : y = prev :=
            hkinj y hykeys prev hprevmem (by rw [hyk, ← hpk])
          subst hyprev
          exact hnd0.not_mem_erase hyD
        cases hm : wildcardMatchS (setItem now k v opts).key idx0.pattern with
        | true =>
            have hrt : (indexAdd (setItem now k v opts)
                (indexRemove prev idx0)).rtr
                = some (t0.erase prev ++ [setItem now k v opts]) := by
              simp [indexAdd, indexRemove, h0, hm]
            rw [hrt] at ht
            injection ht with ht
            rw [← ht] at hx
            rcases List.mem_append.mp hx with hxE | hxI
            · exact absurd hxk (fun hxk => hD0 x hxE hxk)
            · simpa using hxI
        | false =>
            have hrt : (indexAdd (setItem now k v opts)
                (indexRemove prev idx0)).rtr = some (t0.erase prev) := by
              simp [indexAdd, indexRemove, h0, hm]
            rw [hrt] at ht
            injection ht with ht
            rw [← ht] at hx
            exact absurd hxk (fun hxk => hD0 x hx hxk)

/-- Witness for C8: `Set` over the long-expired item of `c8db`. -/
theorem C8_witness :
    dbGet c8db "e" = some c8item ∧ c8item.expired 10 = true ∧
    (txSet 10 (beginTx true c8db) "e" "new" none).2 = ("", false, none) ∧
    (∃ db', (txSet 10 (beginTx true c8db) "e" "new" none).1.db = some db' ∧
      setItem 10 "e" "new" none ∈ db'.keys ∧
      (∀ x ∈ db'.keys, x.key = "e" → x = setItem 10 "e" "new" none) ∧
      (∀ x ∈ db'.exps, x.key = "e" → x = setItem 10 "e" "new" none) ∧
      (∀ idx ∈ db'.idxs, ∀ t, idx.btr = some t →
        ∀ x ∈ t, x.key = "e" → x = setItem 10 "e" "new" none) ∧
      (∀ idx ∈ db'.idxs, ∀ t, idx.rtr = some t →
        ∀ x ∈ t, x.key = "e" → x = setItem 10 "e" "new" none)) := by
  have h := C8_set_over_expired 10 c8db "e" "new" none c8item
    (by simp [sortedBy, c8db])
    (by simp [c8db])
    (by simp [sortedBy, c8db])
    (by simp [c8db])
    (by simp [c8db])
    (by decide) (by decide)
  exact ⟨by decide, by decide, h.1, h.2⟩

/-! ## Decimal formatting and parsing lemmas (for the serialization
round-trip of claim C4) -/

theorem isDigit_digitChar (k : Nat) (hk : k < 10) :
    isDigitChar (Char.ofNat ('0'.toNat + k)) = true := by
  interval_cases k <;> decide

theorem toNat_digitChar (k : Nat) (hk : k < 10) :
    (Char.ofNat ('0'.toNat + k)).toNat = '0'.toNat + k := by
  interval_cases k <;> decide

theorem digit_ne_nl {c : Char} (h : isDigitChar c = true) : c ≠ '\n' := by
  rintro rfl
  exact absurd h (by decide)

theorem natDigitsAux_append (fuel : Nat) :
    ∀ (n : Nat) (acc : List Char),
      natDigitsAux fuel n acc = natDigitsAux fuel n [] ++ acc := by
  induction fuel with
  | zero => intro n acc; simp [natDigitsAux]
  | succ f ih =>
      intro n acc
      by_cases h : n < 10
      · simp [natDigitsAux, h]
      · simp only [natDigitsAux, h, if_false]
        rw [ih (n / 10) (Char.ofNat ('0'.toNat + n % 10) :: acc),
          ih (n / 10) [Char.ofNat ('0'.toNat + n % 10)]]
        simp

theorem natDigitsAux_fuel (f1 : Nat) :
    ∀ (f2 n : Nat) (acc : List Char), n < f1 → n < f2 →
      natDigitsAux f1 n acc = natDigitsAux f2 n acc := by
  induction f1 with
  | zero => intro f2 n acc h1; omega
  | succ g1 ih =>
      intro f2 n acc h1 h2
      cases f2 with
      | zero => omega
      | succ g2 =>
          by_cases h : n < 10
          · simp [natDigitsAux, h]
          · simp only [natDigitsAux, h, if_false]
            have hlt : n / 10 < n := Nat.div_lt_self (by omega) (by omega)
            exact ih g2 (n / 10) _ (by omega) (by omega)

theorem natDigits_base (n : Nat) (h : n < 10) :
    natDigits n = [Char.ofNat ('0'.toNat + n % 10)] := by
  simp [natDigits, natDigitsAux, h]

theorem natDigits_step (n : Nat) (h : ¬ n < 10) :
    natDigits n = natDigits (n / 10) ++ [Char.ofNat ('0'.toNat + n % 10)] := by
  have hlt : n / 10 < n := Nat.div_lt_self (by omega) (by omega)
  conv_lhs => rw [natDigits]
  simp only [natDigitsAux, h, if_false]
  rw [natDigitsAux_append n (n / 10)]
  rw [natDigitsAux_fuel n (n / 10 + 1) (n / 10) [] (by omega) (by omega)]
  rfl

theorem natDigits_all_digits (n : Nat) :
    ∀ c ∈ natDigits n, isDigitChar c = true := by
  induction n using Nat.strong_induction_on with
  | _ n ih =>
      by_cases h : n < 10
      · rw [natDigits_base n h]
        intro c hc
        rw [List.mem_singleton] at hc
        subst hc
        exact isDigit_digitChar _ (Nat.mod_lt _ (by omega))
      · rw [natDigits_step n h]
        intro c hc
        rcases List.mem_append.mp hc with hc | hc
        · exact ih (n / 10) (Nat.div_lt_self (by omega) (by omega)) c hc
        · rw [List.mem_singleton] at hc
          subst hc
          exact isDigit_digitChar _ (Nat.mod_lt _ (by omega))

theorem natDigits_ne_nil (n : Nat) : natDigits n ≠ [] := by
  by_cases h : n < 10
  · rw [natDigits_base n h]; simp
  · rw [natDigits_step n h]; simp

theorem digitsVal_append_singleton (l : List Char) (c : Char) :
    digitsVal (l ++ [c]) = digitsVal l * 10 + (c.toNat - '0'.toNat) := by
  simp [digitsVal, List.foldl_append]

theorem digitsVal_natDigits (n : Nat) : digitsVal (natDigits n) = n := by
  induction n using Nat.strong_induction_on with
  | _ n ih =>
      by_cases h : n < 10
      · rw [natDigits_base n h]
        rw [show digitsVal [Char.ofNat ('0'.toNat + n % 10)]
            = 0 * 10 + ((Char.ofNat ('0'.toNat + n % 10)).toNat - '0'.toNat)
          from rfl]
        rw [toNat_digitChar (n % 10) (Nat.mod_lt _ (by omega))]
        omega
      · rw [natDigits_step n h, digitsVal_append_singleton,
          ih (n / 10) (Nat.div_lt_self (by omega) (by omega)),
          toNat_digitChar (n % 10) (Nat.mod_lt _ (by omega))]
        omega

theorem parseSign_of_digit {c : Char} (cs : List Char)
    (hp : c ≠ '+') (hm : c ≠ '-') : parseSign (c :: cs) = (false, c :: cs) := by
  unfold parseSign
  split
  · next heq => injection heq with h1 _; exact absurd h1 hp
  · next heq => injection heq with h1 _; exact absurd h1 hm
  · rfl

theorem parseInt64_digits (l : List Char) (h0 : l ≠ [])
    (h1 : ∀ c ∈ l, isDigitChar c = true) (h2 : digitsVal l ≤ 2 ^ 63 - 1) :
    parseInt64 l = .ok (digitsVal l) := by
  obtain ⟨c, cs, rfl⟩ := List.exists_cons_of_ne_nil h0
  have hc := h1 c (by simp)
  have hcp : c ≠ '+' := by rintro rfl; exact absurd hc (by decide)
  have hcm : c ≠ '-' := by rintro rfl; exact absurd hc (by decide)
  rw [parseInt64, parseSign_of_digit cs hcp hcm]
  simp only [List.isEmpty_cons, if_false]
  have hA : ((c :: cs).all isDigitChar) = true := by
    rw [List.all_eq_true]; exact h1
  rw [if_neg (by simp : ¬(false = true))]
  rw [if_neg (by rw [hA]; simp : ¬((!(c :: cs).all isDigitChar) = true))]
  rw [if_neg (by simp : ¬(false = true))]
  rw [if_pos h2]

theorem readLine_no_nl (pre : List Char) (rest : List Char)
    (h : ∀ c ∈ pre, c ≠ '\n') :
    readLine (pre ++ '\n' :: rest) = (pre ++ ['\n'], some rest) := by
  induction pre with
  | nil => simp [readLine]
  | cons c cs ih =>
      have hc : c ≠ '\n' := h c (by simp)
      simp only [List.cons_append, readLine, hc, if_false, List.append_eq]
      rw [ih (fun d hd => h d (by simp [hd]))]

theorem readLine_writeHead (c : Char) (n : Nat) (rest : List Char)
    (hc : c ≠ '\n') :
    readLine (writeHead c n ++ rest)
      = (c :: (natDigits n ++ ['\r', '\n']), some rest) := by
  have hsplit : writeHead c n ++ rest
      = (c :: natDigits n ++ ['\r']) ++ '\n' :: rest := by
    simp [writeHead]
  rw [hsplit, readLine_no_nl]
  · have : (c :: natDigits n ++ ['\r']) ++ ['\n']
        = c :: (natDigits n ++ ['\r', '\n']) := by
      simp
    rw [this]
  · intro d hd
    rcases List.mem_cons.mp hd with rfl | hd
    · exact hc
    · rcases List.mem_append.mp hd with hd | hd
      · exact digit_ne_nl (natDigits_all_digits n d hd)
      · rw [List.mem_singleton] at hd
        subst hd
        decide

theorem stripCRLF_append (l : List Char) :
    stripCRLF (l ++ ['\r', '\n']) = some l := by
  simp [stripCRLF, List.reverse_append]

theorem parseRespNum_head (c : Char) (n : Nat) :
    parseRespNum (c :: (natDigits n ++ ['\r', '\n'])) = .ok n := by
  rw [parseRespNum]
  rw [stripCRLF_append]
  simp only []
  rw [if_neg (by simp [List.isEmpty_iff]; exact natDigits_ne_nil n)]
  rw [if_pos (by rw [List.all_eq_true]; exact natDigits_all_digits n)]
  rw [digitsVal_natDigits]

theorem readParts_write (bulks : List (List Char)) (rest : List Char) :
    readParts bulks.length ((bulks.map writeBulk).flatten ++ rest)
      = .ok (bulks, rest) := by
  induction bulks generalizing rest with
  | nil => simp [readParts]
  | cons b bs ih =>
      have hsplit : (((b :: bs).map writeBulk).flatten ++ rest)
          = writeHead '$' b.length
            ++ (b ++ '\r' :: '\n' :: ((bs.map writeBulk).flatten ++ rest)) := by
        simp [writeBulk]
      have h3 : ¬((b ++ '\r' :: '\n'
          :: ((bs.map writeBulk).flatten ++ rest)).length < b.length + 2) := by
        simp
      have h4 : ((b ++ '\r' :: '\n'
          :: ((bs.map writeBulk).flatten ++ rest)).drop b.length).take 2
          = ['\r', '\n'] := by
        rw [show b ++ '\r' :: '\n' :: ((bs.map writeBulk).flatten ++ rest)
            = b ++ ('\r' :: '\n' :: ((bs.map writeBulk).flatten ++ rest))
          from rfl]
        rw [List.drop_left]
        rfl
      have h5 : (b ++ '\r' :: '\n'
          :: ((bs.map writeBulk).flatten ++ rest)).drop (b.length + 2)
          = (bs.map writeBulk).flatten ++ rest := by
        rw [show b ++ '\r' :: '\n' :: ((bs.map writeBulk).flatten ++ rest)
            = (b ++ ['\r', '\n']) ++ ((bs.map writeBulk).flatten ++ rest) from by
          simp]
        rw [show b.length + 2 = (b ++ ['\r', '\n']).length from by simp]
        exact List.drop_left _ _
      have h6 : (b ++ '\r' :: '\n'
          :: ((bs.map writeBulk).flatten ++ rest)).take b.length = b := by
        rw [show b ++ '\r' :: '\n' :: ((bs.map writeBulk).flatten ++ rest)
            = b ++ ('\r' :: '\n' :: ((bs.map writeBulk).flatten ++ rest))
          from rfl]
        exact List.take_left _ _
      rw [show (b :: bs).length = bs.length + 1 from rfl, hsplit]
      rw [readParts, readLine_writeHead '$' b.length _ (by decide)]
      simp only []
      rw [if_neg (by simp)]
      rw [parseRespNum_head '$' b.length]
      simp only []
      rw [if_neg h3, if_pos h4, h5, ih rest]
      simp only []
      rw [h6]

theorem loadLoop_writeMultiBulk (now modTime : Instant) (db db' : DB)
    (f : Nat) (bulks : List (List Char))
    (happly : applyCmd now modTime db bulks = .ok db') :
    loadLoop now modTime (f + 2) db (writeMultiBulk bulks) = .ok db' := by
  rw [show writeMultiBulk bulks
      = writeHead '*' bulks.length ++ ((bulks.map writeBulk).flatten ++ [])
    from by simp [writeMultiBulk]]
  rw [show f + 2 = (f + 1) + 1 from rfl]
  rw [loadLoop, readLine_writeHead '*' bulks.length _ (by decide)]
  simp only []
  rw [if_neg (by simp)]
  rw [parseRespNum_head '*' bulks.length]
  simp only []
  rw [readParts_write bulks []]
  simp only []
  rw [happly]
  simp only []
  rw [loadLoop]
  simp [readLine]

theorem load_writeMultiBulk (now modTime : Instant) (db db' : DB)
    (bulks : List (List Char))
    (happly : applyCmd now modTime db bulks = .ok db') :
    load now modTime db (writeMultiBulk bulks) = .ok db' := by
  have hne : writeMultiBulk bulks ≠ [] := by
    simp [writeMultiBulk, writeHead]
  have h1 : 0 < (writeMultiBulk bulks).length := List.length_pos.mpr hne
  rw [load, show (writeMultiBulk bulks).length + 1
      = ((writeMultiBulk bulks).length - 1) + 2 from by omega]
  exact loadLoop_writeMultiBulk now modTime db db' _ bulks happly

theorem wrap64_small (x : Int) (h1 : -(2 ^ 63) ≤ x) (h2 : x ≤ 2 ^ 63 - 1) :
    wrap64 x = x := by
  rw [wrap64, Int.emod_eq_of_lt (by omega) (by omega)]
  omega

theorem goSub_small (a b : Int) (h1 : -(2 ^ 63) ≤ a - b)
    (h2 : a - b ≤ 2 ^ 63 - 1) : goSub a b = a - b := by
  simp only [goSub]
  rw [if_neg (by omega), if_neg (by omega)]

set_option maxRecDepth 20000 in
/-- **C4 counterexample.** The claim says the write/parse round-trip
reproduces key, value, and an expiration within one second *for every
item, including one whose expiration is already in the past*.  It is
wrong in two ways at the expiry boundary: for an expiration 2 seconds
in the past, `writeSetTo` converts the negative second count through
`uint64`, producing `18446744073709551614`, and reloading fails with
`strconv.ParseInt`'s range error; for an expiration half a second in
the future the stored TTL truncates to `ex 0`, whose non-positive
duration makes the loader drop the item entirely, so not even the key
survives the round-trip. -/
theorem C4_counterexample_roundtrip_fails :
    c4past.expiresAt = -2000000000 ∧
    loadErr (load 0 0 emptyDB (writeSetTo 0 c4past)) = some .parseIntError ∧
    c4half.expiresAt = 500000000 ∧
    (load 0 0 emptyDB (writeSetTo 0 c4half)).toOption.map DB.keys = some [] := by
  decide

/-- **C4 amended.** For an item whose remaining TTL at write time is at
least one full second (and within the `time.Duration` range), writing a
SET record with `writeSetTo` and loading it back at the same instant
(with the file's modification time equal to it) reproduces the key and
value exactly and an expiration within one second below the original:
the reloaded expiration `exat'` satisfies `exat - 1s < exat' ≤ exat`. -/
theorem C4_amended_roundtrip_with_ttl (db : DB) (now : Int)
    (k v : String) (exat : Int)
    (h1 : nsPerSecond ≤ exat - now) (h2 : exat - now ≤ 2 ^ 63 - 1) :
    ∃ exat' : Int,
      load now now db (writeSetTo now
          { key := k, val := v, opts := some { ex := true, exat := exat } })
        = .ok (insertIntoDatabase db
            { key := k, val := v,
              opts := some { ex := true, exat := exat' } }).1 ∧
      exat - nsPerSecond < exat' ∧ exat' ≤ exat := by
  have hns : nsPerSecond = (1000000000 : Int) := rfl
  rw [hns] at h1
  have hd0 : (0 : Int) ≤ exat - now := by omega
  have hq : Int.tdiv (exat - now) (1000000000 : Int)
      = (exat - now) / 1000000000 := Int.tdiv_eq_ediv hd0 (by omega)
  have hq0 : (0 : Int) ≤ (exat - now) / 1000000000 := by omega
  have hN : toUint64 (Int.tdiv (goSub exat now) nsPerSecond)
      = ((exat - now) / 1000000000).toNat := by
    rw [hns, goSub_small exat now (by omega) h2, hq, toUint64,
      Int.emod_eq_of_lt (by omega) (by omega)]
  have hNint : ((((exat - now) / 1000000000).toNat : Nat) : Int)
      = (exat - now) / 1000000000 := Int.toNat_of_nonneg hq0
  have hNnat2 : ((((exat - now) / 1000000000).toNat : Nat)) ≤ 2 ^ 63 - 1 := by
    omega
  have hw : writeSetTo now
      { key := k, val := v, opts := some { ex := true, exat := exat } }
      = writeMultiBulk ["set".data, k.data, v.data, "ex".data,
          natDigits (((exat - now) / 1000000000).toNat)] := by
    simp only [writeSetTo, hN, eq_self_iff_true, if_true]
  refine ⟨now + ((exat - now) / 1000000000) * 1000000000, ?_, ?_, ?_⟩
  · rw [hw]
    apply load_writeMultiBulk
    rw [applyCmd]
    rw [if_neg (by decide)]
    rw [if_pos (by decide : isSetVerb "set".data = true)]
    simp only []
    rw [if_neg (by decide)]
    rw [parseInt64_digits _ (natDigits_ne_nil _) (natDigits_all_digits _)
      (by rw [digitsVal_natDigits]; exact hNnat2)]
    simp only []
    rw [digitsVal_natDigits, hNint, hns]
    rw [goSub_small now now (by omega) (by omega)]
    rw [wrap64_small _ (by omega) (by omega)]
    rw [sub_self, sub_zero]
    rw [if_pos (by omega)]
  · rw [hns]; omega
  · omega

/-- **C4 witness.** The amended round-trip at a concrete input: an item
expiring 3.5 seconds after instant 0 written into an empty database. -/
theorem C4_amended_witness :
    nsPerSecond ≤ 3500000000 - 0 ∧ (3500000000 : Int) - 0 ≤ 2 ^ 63 - 1 ∧
    ∃ exat' : Int,
      load 0 0 emptyDB (writeSetTo 0
          { key := "a", val := "b", opts := some { ex := true, exat := 3500000000 } })
        = .ok (insertIntoDatabase emptyDB
            { key := "a", val := "b",
              opts := some { ex := true, exat := exat' } }).1 ∧
      3500000000 - nsPerSecond < exat' ∧ exat' ≤ 3500000000 :=
  ⟨by decide, by decide,
    C4_amended_roundtrip_with_ttl emptyDB 0 "a" "b" 3500000000 (by decide) (by decide)⟩

end BuntDB
